import Mathlib

/-!
Verification development for the trading repository.

The repository is a small crypto trading bot with two drivers over the same
per-tick lifecycle: a historical backtest driver (`backtest.py`,
`Backtester.run_backtest`) and a live/paper driver (`strategies.py`,
`modules/exit.py`, `modules/portfolio.py`, `risk.py`).

Real arithmetic (Python floats) is modelled with `ℚ`.  Time stamps, logging
strings and file persistence are environment effects and are either omitted or
kept as ghost fields (the `exits` log below mirrors the `_bt_log` calls; the
ledger in the portfolio model mirrors `state["ledger"]`).  Division by zero in
Python raises and is caught by the enclosing `try/except` blocks with no state
mutated; in `ℚ` the same expressions evaluate to `0` and the guards that follow
refuse the entry, so the resulting state is the same - this is noted at each
place it matters.
-/

/-- The two configured strategies of the engine (`backtest.py` keys
`"momentum"` and `"ma"`). -/
inductive Strategy where
  | momentum
  | ma
deriving DecidableEq

/-- One OHLC bar.  Only the `high`, `low` and `close` columns are read by the
modelled logic (`_atr_pct`, `_sig_momentum`, `_sig_ma`, the tick loop); the
remaining kline columns (open, volume, times) feed only timestamps/logging and
are omitted. -/
structure Bar where
  high : ℚ
  low : ℚ
  close : ℚ
deriving DecidableEq

/-- Configuration of `Backtester` as derived in `Backtester.__init__` from
`cfg` (percent fields already divided by 100, exactly as the constructor
does). -/
structure BTCfg where
  initial_balance : ℚ
  weight_momentum : ℚ
  weight_ma : ℚ
  per_trade_pct : ℚ
  take_profit_pct : ℚ
  stop_loss_pct : ℚ
  trailing_stop_pct : ℚ
  taker_fee_pct : ℚ
  slippage_pct : ℚ
  min_atr_pct : ℚ
  entry_cooldown_bars : ℤ
  entry_lookback_min : ℕ
  entry_change_pct : ℚ

/-- An open position, as the dict appended by `do_enter` in
`Backtester.run_backtest` (the `entry_time` field only records a timestamp for
logging and is omitted; `entry_index` is the loop index `i`). -/
structure Position where
  strategy : Strategy
  entry_price : ℚ
  qty : ℚ
  entry_index : ℕ
  tp_price : ℚ
  sl_price : ℚ
  highest : ℚ
  entry_fee : ℚ
deriving DecidableEq

/-- Exit reasons logged by the backtest loop (`"TP"`, `"SL"`, `"TRAIL"`) and
the force-exit pass (`"[BT FORCE EXIT]"`). -/
inductive ExitKind where
  | TP
  | SL
  | TRAIL
  | FORCED
deriving DecidableEq

/-- Ghost record of one close, mirroring the data printed by `_bt_log` on
`[BT EXIT]` / `[BT FORCE EXIT]` lines (strategy, reason, `ex_px`, `pnl`). -/
structure ExitRecord where
  strategy : Strategy
  reason : ExitKind
  price : ℚ
  pnl : ℚ
deriving DecidableEq

/-- Mutable state of one `run_backtest` call: `balances`, `open_positions`,
`last_entry_bar` (keyed only by strategy - the run has a single symbol),
`trades_count`, `equity_curve`, plus the ghost `exits` log. -/
structure BTState where
  balances : Strategy → ℚ
  openPositions : List Position
  lastEntryBar : Strategy → Option ℕ
  tradesCount : Strategy → ℕ
  equityCurve : List ℚ
  exits : List ExitRecord

/-- Pointwise update of a strategy-keyed map (a two-key Python dict). -/
def updS {α : Type} (f : Strategy → α) (s : Strategy) (v : α) : Strategy → α :=
  fun t => if t = s then v else f t

/-- Normalisation denominator for the strategy weights:
`sw_sum = sum(self.strategy_weights.values()) or 1.0`. -/
def swSum (cfg : BTCfg) : ℚ :=
  let s := cfg.weight_momentum + cfg.weight_ma
  if s = 0 then 1 else s

/-- The raw configured weight of a strategy. -/
def rawWeight (cfg : BTCfg) : Strategy → ℚ
  | .momentum => cfg.weight_momentum
  | .ma => cfg.weight_ma

/-- Normalised strategy weight, as computed by the loop
`self.strategy_weights[k] = self.strategy_weights[k] / sw_sum`. -/
def wNorm (cfg : BTCfg) (s : Strategy) : ℚ := rawWeight cfg s / swSum cfg

/-- State at the top of `run_backtest`, before the bar loop:
`balances = {"momentum": initial*w_momentum, "ma": initial*w_ma}`,
`open_positions = []`, `last_entry_bar = {}`. -/
def initState (cfg : BTCfg) : BTState :=
  { balances := fun s => cfg.initial_balance * wNorm cfg s
    openPositions := []
    lastEntryBar := fun _ => none
    tradesCount := fun _ => 0
    equityCurve := []
    exits := [] }

/-- Last `n` elements of a list (`xs.iloc[-n:]`). -/
def lastN (n : ℕ) (xs : List ℚ) : List ℚ := xs.drop (xs.length - n)

/-- Arithmetic mean (`.mean()`); only applied to nonempty lists by the guarded
callers below. -/
def mean (xs : List ℚ) : ℚ := xs.sum / (xs.length : ℚ)

/-- `Backtester._sig_momentum`: percent change of the last close against the
close `lookback_min+1` bars back, compared with `change_pct` (inclusive `≥`);
`False` on short data or non-positive start. -/
def sigMomentum (closes : List ℚ) (lookback_min : ℕ) (change_pct : ℚ) : Bool :=
  if closes.length < lookback_min + 1 then false
  else
    let start := closes.getD (closes.length - (lookback_min + 1)) 0
    let last := closes.getLastD 0
    if start ≤ 0 then false
    else decide ((last - start) / start * 100 ≥ change_pct)

/-- `Backtester._sig_ma`: mean of the last `s` closes strictly above the mean
of the last `l` closes; `False` if fewer than `l` bars. -/
def sigMa (closes : List ℚ) (s l : ℕ) : Bool :=
  if closes.length < l then false
  else decide (mean (lastN s closes) > mean (lastN l closes))

/-- True ranges `tr` of `Backtester._atr_pct`: for each bar after the first,
`max(h-l, max(|h - prev_close|, |l - prev_close|))`. -/
def trueRanges (bars : List Bar) : List ℚ :=
  List.zipWith
    (fun cur prev =>
      max (cur.high - cur.low) (max |cur.high - prev.close| |cur.low - prev.close|))
    (bars.drop 1) bars

/-- `Backtester._atr_pct`: `none` on short data or non-positive last close,
otherwise the mean of the last `lookback` true ranges divided by the last
close. -/
def atrPct (bars : List Bar) (lookback : ℕ) : Option ℚ :=
  if bars.length < lookback + 1 then none
  else
    let atr := mean (lastN lookback (trueRanges bars))
    let last := (bars.map Bar.close).getLastD 0
    if last ≤ 0 then none else some (atr / last)

/-- The `can_enter` closure of `run_backtest`: cooldown elapsed
(`i - last_entry_bar.get(key, -10**9) >= entry_cooldown_bars`) and no open
position of the same strategy. -/
def canEnter (cfg : BTCfg) (st : BTState) (i : ℕ) (s : Strategy) : Bool :=
  let last : ℤ := match st.lastEntryBar s with
    | some j => (j : ℤ)
    | none => -(10 ^ 9 : ℤ)
  decide ((i : ℤ) - last ≥ cfg.entry_cooldown_bars) &&
    !(st.openPositions.any fun p => decide (p.strategy = s))

/-- The `do_enter` closure of `run_backtest`.  Sizing: `alloc = pool *
per_trade_pct`; slipped entry `entry = px*(1+slippage_pct)`; `qty = alloc /
entry`; if `need = entry*qty + fee > balance` shrink to `qty = balance /
(entry*(1+taker_fee_pct))`; refuse (state unchanged) when `alloc ≤ 0`, when
`qty ≤ 0`, or when the recomputed `need` still exceeds the balance.  In Python
`entry = 0` raises `ZeroDivisionError`, swallowed by the caller's `except` with
no state mutated; here `alloc / 0 = 0` and the `qty ≤ 0` guard refuses, giving
the same unchanged state. -/
def doEnter (cfg : BTCfg) (st : BTState) (i : ℕ) (px : ℚ) (s : Strategy) : BTState :=
  let alloc_pool := st.balances s
  let alloc := alloc_pool * cfg.per_trade_pct
  if alloc ≤ 0 then st
  else
    let entry := px * (1 + cfg.slippage_pct)
    let qty0 := alloc / entry
    let fee0 := entry * qty0 * cfg.taker_fee_pct
    let need0 := entry * qty0 + fee0
    -- on the shrink branch the source recomputes `fee_e` and `need` from the
    -- shrunk qty with the same two formulas, so the recomputation is shared
    let qty := if need0 > st.balances s
      then st.balances s / (entry * (1 + cfg.taker_fee_pct)) else qty0
    let fee_e := entry * qty * cfg.taker_fee_pct
    let need := entry * qty + fee_e
    if qty ≤ 0 ∨ need > st.balances s then st
    else
      let tp := entry * (1 + cfg.take_profit_pct)
      let sl := entry * (1 - cfg.stop_loss_pct)
      { st with
        balances := updS st.balances s (st.balances s - need)
        openPositions := st.openPositions ++
          [{ strategy := s, entry_price := entry, qty := qty, entry_index := i
             tp_price := tp, sl_price := sl, highest := entry, entry_fee := fee_e }]
        lastEntryBar := updS st.lastEntryBar s (some i)
        tradesCount := updS st.tradesCount s (st.tradesCount s + 1) }

/-- Exit decision of the backtest exit loop for one position at tick price
`px`: first `pos["highest"]` is raised to `max(highest, px)` and the trail
stop is `highest*(1-trailing_stop_pct)`; then, first match wins:
`px ≥ tp_price → TP`, else `px ≤ sl_price → SL`, else `px ≤ trail → TRAIL`,
else no exit. -/
def exitReason (cfg : BTCfg) (pos : Position) (px : ℚ) : Option ExitKind :=
  let highest := max pos.highest px
  let trail := highest * (1 - cfg.trailing_stop_pct)
  if px ≥ pos.tp_price then some .TP
  else if px ≤ pos.sl_price then some .SL
  else if px ≤ trail then some .TRAIL
  else none

/-- Body of the exit loop for one position.  On a match the exit price is the
tick price itself (`reason, ex_px = "TP", px` and likewise for SL/TRAIL):
`proceeds = ex_px*qty`, `fee_exit = proceeds*taker_fee_pct`, the strategy
balance is credited `proceeds - fee_exit` and the logged
`pnl = (proceeds - fee_exit) - (entry_price*qty + entry_fee)`.  Otherwise the
position is kept with its updated `highest`. -/
def exitOne (cfg : BTCfg) (px : ℚ) (acc : BTState) (pos : Position) : BTState :=
  let highest := max pos.highest px
  match exitReason cfg pos px with
  | some r =>
    let proceeds := px * pos.qty
    let fee_exit := proceeds * cfg.taker_fee_pct
    let pnl := (proceeds - fee_exit) - (pos.entry_price * pos.qty + pos.entry_fee)
    { acc with
      balances := updS acc.balances pos.strategy
        (acc.balances pos.strategy + (proceeds - fee_exit))
      exits := acc.exits ++ [{ strategy := pos.strategy, reason := r, price := px, pnl := pnl }] }
  | none =>
    { acc with openPositions := acc.openPositions ++ [{ pos with highest := highest }] }

/-- The `keep = []; for pos in open_positions: ...` loop, with the kept
positions accumulating in `acc.openPositions`. -/
def exitLoop (cfg : BTCfg) (px : ℚ) (ps : List Position) (acc : BTState) : BTState :=
  match ps with
  | [] => acc
  | pos :: rest => exitLoop cfg px rest (exitOne cfg px acc pos)

/-- The whole exit phase of one tick: run the loop over the current open
positions, starting from an empty keep-list (`open_positions = keep`). -/
def exitStep (cfg : BTCfg) (px : ℚ) (st : BTState) : BTState :=
  exitLoop cfg px st.openPositions { st with openPositions := [] }

/-- `total_cash = sum(balances.values())` over the two strategy keys. -/
def totalCash (st : BTState) : ℚ := st.balances .momentum + st.balances .ma

/-- `mkt_value = sum(p["qty"] * px for p in open_positions)`. -/
def mktValue (st : BTState) (px : ℚ) : ℚ :=
  (st.openPositions.map fun p => p.qty * px).sum

/-- Entry attempts of one tick, in source order: the momentum attempt, then
the ma attempt, each guarded by `can_enter` and its signal. -/
def entryPhase (cfg : BTCfg) (closes : List ℚ) (i : ℕ) (px : ℚ) (st : BTState) : BTState :=
  let st :=
    if canEnter cfg st i .momentum &&
        sigMomentum closes cfg.entry_lookback_min cfg.entry_change_pct then
      doEnter cfg st i px .momentum
    else st
  let st :=
    if canEnter cfg st i .ma && sigMa closes 9 21 then doEnter cfg st i px .ma
    else st
  st

/-- The per-tick equity snapshot: append `total_cash + mkt_value` to the
equity curve (after exits, before entries). -/
def equitySnap (px : ℚ) (st : BTState) : BTState :=
  { st with equityCurve := st.equityCurve ++ [totalCash st + mktValue st px] }

/-- One iteration of the `for i in range(len(df))` loop: exits first, then the
equity snapshot, then the ATR volatility gate, then the entry phase. -/
def tickStep (cfg : BTCfg) (bars : List Bar) (st : BTState) (i : ℕ) : BTState :=
  let win := bars.take (i + 1)
  let closes := win.map Bar.close
  let px := closes.getLastD 0
  let st := exitStep cfg px st
  let st := equitySnap px st
  match atrPct win 14 with
  | none => st
  | some a =>
    if a < cfg.min_atr_pct then st
    else entryPhase cfg closes i px st

/-- State after the first `n` iterations of the bar loop. -/
def foldTicks (cfg : BTCfg) (bars : List Bar) (n : ℕ) : BTState :=
  (List.range n).foldl (tickStep cfg bars) (initState cfg)

/-- One step of the force-exit pass: `ex_px = last_px*(1-slippage_pct)`,
`proceeds = ex_px*qty`, `fee_exit = proceeds*taker_fee_pct`, credit
`proceeds - fee_exit`, log the forced close. -/
def forceOne (cfg : BTCfg) (lastPx : ℚ) (acc : BTState) (pos : Position) : BTState :=
  let ex_px := lastPx * (1 - cfg.slippage_pct)
  let proceeds := ex_px * pos.qty
  let fee_exit := proceeds * cfg.taker_fee_pct
  let pnl := (proceeds - fee_exit) - (pos.entry_price * pos.qty + pos.entry_fee)
  { acc with
    balances := updS acc.balances pos.strategy
      (acc.balances pos.strategy + (proceeds - fee_exit))
    exits := acc.exits ++ [{ strategy := pos.strategy, reason := .FORCED, price := ex_px, pnl := pnl }] }

/-- The `for pos in open_positions` force-exit loop. -/
def forceLoop (cfg : BTCfg) (lastPx : ℚ) (ps : List Position) (acc : BTState) : BTState :=
  match ps with
  | [] => acc
  | pos :: rest => forceLoop cfg lastPx rest (forceOne cfg lastPx acc pos)

/-- The whole force-exit pass after the bar loop.  The source credits every
remaining open position and then never touches the `open_positions` list
again (the run returns); economically every position is closed, modelled here
by emptying the list while crediting each element exactly once. -/
def forceExit (cfg : BTCfg) (lastPx : ℚ) (st : BTState) : BTState :=
  forceLoop cfg lastPx st.openPositions { st with openPositions := [] }

/-- The final run summary (`summary` dict): `final_balance =
sum(balances.values())`, `total_pnl = final - initial`, per-strategy trade
counts.  `max_drawdown_pct` is a numpy reduction over the equity curve and is
not needed by any claim, so it is omitted here. -/
structure Summary where
  initial_balance : ℚ
  final_balance : ℚ
  total_pnl : ℚ
  trades_momentum : ℕ
  trades_ma : ℕ
deriving DecidableEq

/-- `Backtester.run_backtest` on an already-fetched bar list: `none` when the
dataframe is empty (the code returns `{}` before the loop), otherwise the bar
loop, the force-exit pass at `last_px = df["close"].iloc[-1]`, and the
summary. -/
def runBacktest (cfg : BTCfg) (bars : List Bar) : Option (BTState × Summary) :=
  if bars.isEmpty then none
  else
    let st := foldTicks cfg bars bars.length
    let lastPx := (bars.map Bar.close).getLastD 0
    let stF := forceExit cfg lastPx st
    let final := totalCash stF
    some (stF,
      { initial_balance := cfg.initial_balance
        final_balance := final
        total_pnl := final - cfg.initial_balance
        trades_momentum := stF.tradesCount .momentum
        trades_ma := stF.tradesCount .ma })

/-!
Model of `risk.py` (`RiskManager`).  The constructor divides the configured
percent values by 100; the fields below hold the post-division values, exactly
as stored on `self`.
-/

/-- Configuration of `RiskManager` as derived in `RiskManager.__init__`. -/
structure RiskCfg where
  per_trade_alloc_pct : ℚ
  per_trade_risk_pct : ℚ
  take_profit_pct : ℚ
  stop_loss_pct : ℚ
  taker_fee_pct : ℚ
  max_daily_drawdown_pct : ℚ

/-- Rounding of `q` to 8 decimal places, modelling `float(f"{qty:.8f}")` in
`RiskManager._round_qty` (round half up here; Python's formatting rounds the
binary double half to even - the two agree on every value used below, which
is exact at 8 decimals). -/
def roundq8 (q : ℚ) : ℚ := (round (q * 10 ^ 8) : ℤ) / 10 ^ 8

/-- `RiskManager._round_qty` on the default path (no exchange rounder, which
is an external collaborator): `0` for non-positive input, else round to 8
decimals and collapse to `0` below `1e-8`. -/
def round_qty (qty : ℚ) : ℚ :=
  if qty ≤ 0 then 0
  else
    let q := roundq8 qty
    if q < 1 / 10 ^ 8 then 0 else q

/-- `RiskManager.compute_position_size_by_risk` with the balance already
resolved (`balance_override` or the portfolio/exchange read): `0` on
non-positive balance or entry price; otherwise
`risk_amount = max(0, balance*per_trade_risk_pct)`,
`risk_per_unit = |entry-stop|`, `qty_risk = risk_amount/risk_per_unit`
(`inf` when `risk_per_unit ≤ 0`, so the `min` collapses to the allocation
cap), `qty_cap = max(0, balance*per_trade_alloc_pct)/entry`, and the result is
`_round_qty(max(0, min(qty_risk, qty_cap)))`. -/
def compute_position_size_by_risk (cfg : RiskCfg) (balance entry_price stop_price : ℚ) : ℚ :=
  if balance ≤ 0 ∨ entry_price ≤ 0 then 0
  else
    let risk_amount := max 0 (balance * cfg.per_trade_risk_pct)
    let risk_per_unit := |entry_price - stop_price|
    let alloc_usdt := max 0 (balance * cfg.per_trade_alloc_pct)
    let qty_cap := alloc_usdt / entry_price
    let qty :=
      if risk_per_unit ≤ 0 then qty_cap
      else min (risk_amount / risk_per_unit) qty_cap
    round_qty (max 0 qty)

/-- Daily-guard state on `RiskManager`: `_day_anchor_ts` (`0` meaning unset,
as the Python `0.0` is falsy) and `_day_start_equity`. -/
structure GuardState where
  day_anchor_ts : ℕ
  day_start_equity : Option ℚ
deriving DecidableEq

/-- `RiskManager.check_daily_loss_guard`.  Inputs: the UTC-day key function
`dayOf` (modelling `strftime("%Y-%m-%d")` of a timestamp), the current time
`now` (`time.time()`), and the equity read (`none` models an unreadable
equity, which skips the guard).  Returns the pass/halt boolean (`false` =
halt) and the updated state.  Structure mirrors the source: limit `≤ 0`
passes; unreadable equity passes; a set anchor from a different day resets the
anchor; an unset `day_start_equity` is anchored to the current equity and
passes; otherwise halt iff `equity ≤ day_start_equity*(1-max_daily_drawdown_pct)`. -/
def check_daily_loss_guard (cfg : RiskCfg) (dayOf : ℕ → ℕ) (now : ℕ)
    (equity : Option ℚ) (st : GuardState) : Bool × GuardState :=
  if cfg.max_daily_drawdown_pct ≤ 0 then (true, st)
  else
    match equity with
    | none => (true, st)
    | some eq =>
      let st :=
        if st.day_anchor_ts ≠ 0 ∧ dayOf st.day_anchor_ts ≠ dayOf now then
          { day_anchor_ts := 0, day_start_equity := none }
        else st
      match st.day_start_equity with
      | none => (true, { day_anchor_ts := now, day_start_equity := some eq })
      | some anchor =>
        let limit_eq := anchor * (1 - cfg.max_daily_drawdown_pct)
        if eq ≤ limit_eq then (false, st) else (true, st)

/-!
Model of `modules/portfolio.py` (`PortfolioManager`) and the exit decision of
`modules/exit.py` (`ExitManager.manage_positions`).  The live store keys
strategies and position ids by strings (JSON dicts), modelled as association
lists; `ts` fields and string formatting of ledger details are environment
effects, so a ledger event keeps the event kind, the pid and the pnl that the
formatted details string carries.
-/

/-- Status of a stored live position (`pos["status"]`). -/
inductive PStatus where
  | opened
  | closed
deriving DecidableEq

/-- A stored live position (the fields `close_position` and
`get_open_positions` read). -/
structure LivePos where
  symbol : String
  strategy : String
  entry_price : ℚ
  qty : ℚ
  status : PStatus
deriving DecidableEq

/-- One `state["ledger"]` event (timestamp omitted; the formatted details of
an exit event carry the pid and the pnl). -/
structure LEvent where
  event : String
  pid : String
  pnl : ℚ
deriving DecidableEq

/-- `PortfolioManager.state`: positions by pid, balances by strategy name,
and the append-only ledger. -/
structure PState where
  positions : List (String × LivePos)
  balances : List (String × ℚ)
  ledger : List LEvent
deriving DecidableEq

/-- Dict update `d[k] = v` on an association list. -/
def assocSet {α : Type} (l : List (String × α)) (k : String) (v : α) : List (String × α) :=
  match l with
  | [] => [(k, v)]
  | (k', v') :: rest => if k' = k then (k, v) :: rest else (k', v') :: assocSet rest k v

/-- Dict read `d.get(k, dflt)` on an association list. -/
def assocGetD {α : Type} (l : List (String × α)) (k : String) (dflt : α) : α :=
  match l with
  | [] => dflt
  | (k', v') :: rest => if k' = k then v' else assocGetD rest k dflt

/-- Fresh `PortfolioManager` state when no state file exists:
`{"positions": {}, "balances": {}, "ledger": []}`. -/
def freshPState : PState := { positions := [], balances := [], ledger := [] }

/-- `PortfolioManager.get_balance`: `state["balances"].get(strategy, 0.0)`. -/
def get_balance (st : PState) (strategy : String) : ℚ :=
  assocGetD st.balances strategy 0

/-- `PortfolioManager.update_balance`: read the balance with default
`initial_balance/2` for a missing key, then unconditionally store
`bal + pnl` (no non-negativity refusal).  `initial_balance` is
`cfg["trade"].get("initial_balance", 1000)`. -/
def update_balance (initial_balance : ℚ) (st : PState) (pnl : ℚ) (strategy : String) : PState :=
  let bal := assocGetD st.balances strategy (initial_balance / 2)
  { st with balances := assocSet st.balances strategy (bal + pnl) }

/-- `PortfolioManager.ledger`: append one event. -/
def ledgerAppend (st : PState) (e : LEvent) : PState :=
  { st with ledger := st.ledger ++ [e] }

/-- `PortfolioManager.close_position`: guarded only by `pid in
state["positions"]` (the stored status is not consulted); on a present pid it
sets the status to closed, credits the pnl via `update_balance`, and appends
an `"exit"` ledger event.  An absent pid is a no-op. -/
def close_position (initial_balance : ℚ) (st : PState) (pid : String) (pnl : ℚ) : PState :=
  match st.positions.lookup pid with
  | none => st
  | some pos =>
    let st := { st with positions := assocSet st.positions pid { pos with status := .closed } }
    let st := update_balance initial_balance st pnl pos.strategy
    ledgerAppend st { event := "exit", pid := pid, pnl := pnl }

/-- `PortfolioManager.get_open_positions`: positions whose status is not
closed. -/
def get_open_positions (st : PState) : List (String × LivePos) :=
  st.positions.filter fun kv => decide (kv.2.status ≠ .closed)

/-- The exit decision of `ExitManager.manage_positions` for one position:
`price ≥ tp_price` gives reason `"TP hit"`; otherwise `price ≤ sl_price or
price ≤ trail_stop` gives the single merged reason `"SL/Trail hit"`; otherwise
no close. -/
def liveExitReason (tp_price sl_price trail_stop price : ℚ) : Option String :=
  if price ≥ tp_price then some "TP hit"
  else if price ≤ sl_price ∨ price ≤ trail_stop then some "SL/Trail hit"
  else none

/-- External observation of one symbol iteration of
`StrategyManager.scan_and_trade` (strategies.py lines 166-227).  The fetched
dataframe, the momentum/ma signal, the RSI/MACD filters, the risk sizing
(`qty > 0`) and the market-buy execution (`exec_qty > 0`) are collaborator
calls (spec section 6); for each strategy the field holds
`some (pid, exec_price, exec_qty)` exactly when that whole pipeline produced
a fill for this symbol on this poll, and `none` otherwise (no signal, a
blocking filter, sizing 0, a rejected or failed order, or an exception
swallowed by the per-symbol handler). -/
structure ScanObs where
  symbol : String
  momentumFill : Option (String × ℚ × ℚ)
  maFill : Option (String × ℚ × ℚ)
deriving DecidableEq

/-- Modelled from the spec: `PortfolioManager.open_position`, called by
`StrategyManager.scan_and_trade` (strategies.py lines 195-202 and 218-225),
has no definition under src/.  Spec section 4.3 (`PositionLedger.open`):
atomically debit `qty*entry_price + fee` from the strategy balance and
record the position as open under a fresh id, refusing as a no-op if the
debit would drive the balance negative.  The caller passes no fee, so the
debit here is `qty*entry_price`; the fresh position id is an input (the
ledger owns id generation); the stored record keeps the `LivePos` fields
(sl/tp prices are not modelled on the stored position because no claim here
reads them). -/
def open_position (st : PState) (pid symbol strategy : String)
    (entry_price qty : ℚ) : PState :=
  let bal := assocGetD st.balances strategy 0
  let debit := qty * entry_price
  if bal - debit < 0 then st
  else
    { st with
      balances := assocSet st.balances strategy (bal - debit)
      positions := assocSet st.positions pid
        { symbol := symbol, strategy := strategy, entry_price := entry_price
          qty := qty, status := .opened } }

/-- The shared shape of both strategy blocks of one `scan_and_trade` symbol
iteration: `if not has_<strategy> and <pipeline fill>: open_position(...)`.
`blocked` is the `has_momentum`/`has_ma` test of the snapshot. -/
def tryOpen (st : PState) (blocked : Bool) (symbol strategy : String)
    (fill : Option (String × ℚ × ℚ)) : PState :=
  match fill with
  | some f => if !blocked then open_position st f.1 symbol strategy f.2.1 f.2.2 else st
  | none => st

/-- One symbol iteration of `scan_and_trade`: `has_momentum` and `has_ma`
are tested against the snapshot of open positions fetched once before the
symbol loop (strategies.py lines 160-179), then the momentum block runs,
then the ma block. -/
def scanSym (snapshot : List LivePos) (st : PState) (obs : ScanObs) : PState :=
  let has_momentum := snapshot.any fun p =>
    decide (p.symbol = obs.symbol) && decide (p.strategy = "momentum")
  let has_ma := snapshot.any fun p =>
    decide (p.symbol = obs.symbol) && decide (p.strategy = "ma")
  let st := tryOpen st has_momentum obs.symbol "momentum" obs.momentumFill
  tryOpen st has_ma obs.symbol "ma" obs.maFill

/-- `StrategyManager.scan_and_trade` over one universe scan (one live
poll/tick): the open-position snapshot is fetched once
(`self.portfolio.get_open_positions()`, line 162), then every universe entry
is processed against that same snapshot.  The daily-guard gate and the
empty-universe early return (lines 153-158) precede this and leave the
store unchanged when they fire. -/
def scan_and_trade (st : PState) (univ : List ScanObs) : PState :=
  let snapshot := (get_open_positions st).map Prod.snd
  univ.foldl (scanSym snapshot) st

/-- Number of open positions of one (symbol, strategy) pair in the live
store, read through `get_open_positions`. -/
def liveOpenCount (st : PState) (symbol strategy : String) : ℕ :=
  ((get_open_positions st).filter fun kv =>
    decide (kv.2.symbol = symbol) && decide (kv.2.strategy = strategy)).length


/-- Concrete backtest configuration used by the C5 counterexample:
`taker_fee_pct = 0.0004 = 1/2500` and `slippage_pct = 0.0005 = 1/2000`,
everything else at the repository defaults. -/
def cfgE : BTCfg := ⟨1000, 1/2, 1/2, 1/10, 1/20, 1/50, 1/100, 1/2500, 1/2000, 1/2000, 10, 15, 3⟩

/-- Concrete open position used by the C5 counterexample: entry 100, qty 1,
`tp_price` 105, `sl_price` 98, entry fee 0.04. -/
def posE : Position := ⟨.momentum, 100, 1, 0, 105, 98, 100, 1/25⟩

/-- Concrete backtest state holding just `posE`, with both balances at 500. -/
def stE : BTState := ⟨fun _ => 500, [posE], fun _ => none, fun _ => 0, [], []⟩

/-- At most one position per strategy, stated as pairwise distinct strategy
tags on the open-position list. -/
def noDupStrat (l : List Position) : Prop :=
  l.Pairwise fun a b => a.strategy ≠ b.strategy

/-- Sum of the force-exit credits (`proceeds - fee_exit` priced at
`ex_px = last_px*(1-slippage_pct)`) received by the positions of a list that
belong to a given strategy. -/
def forcedCreditSum (cfg : BTCfg) (lastPx : ℚ) (s : Strategy) : List Position → ℚ
  | [] => 0
  | p :: rest =>
    (if p.strategy = s then
      lastPx * (1 - cfg.slippage_pct) * p.qty
        - lastPx * (1 - cfg.slippage_pct) * p.qty * cfg.taker_fee_pct
     else 0) + forcedCreditSum cfg lastPx s rest

/-!
Theorems for the claims.  Helper lemmas shared between proofs come first.
-/

/-- C10: The daily loss guard always passes when `max_daily_drawdown_pct ≤ 0`;
a check with no anchored day-start equity (fresh state, or a set anchor from
a different UTC day, which is reset) records the current equity as the anchor
and passes; every subsequent check on the same UTC day halts exactly when
`equity ≤ anchor*(1-max_daily_drawdown_pct)`, the boundary included, and
leaves the state unchanged. -/
theorem C10_daily_guard :
    (∀ (cfg : RiskCfg) (dayOf : ℕ → ℕ) (now : ℕ) (equity : Option ℚ) (st : GuardState),
      cfg.max_daily_drawdown_pct ≤ 0 →
      check_daily_loss_guard cfg dayOf now equity st = (true, st))
    ∧ (∀ (cfg : RiskCfg) (dayOf : ℕ → ℕ) (now : ℕ) (e : ℚ) (st : GuardState),
      0 < cfg.max_daily_drawdown_pct →
      (st.day_start_equity = none ∨ (st.day_anchor_ts ≠ 0 ∧ dayOf st.day_anchor_ts ≠ dayOf now)) →
      check_daily_loss_guard cfg dayOf now (some e) st
        = (true, { day_anchor_ts := now, day_start_equity := some e }))
    ∧ (∀ (cfg : RiskCfg) (dayOf : ℕ → ℕ) (now : ℕ) (e a : ℚ) (st : GuardState),
      0 < cfg.max_daily_drawdown_pct →
      st.day_start_equity = some a →
      dayOf st.day_anchor_ts = dayOf now →
      ((check_daily_loss_guard cfg dayOf now (some e) st).1 = false ↔
        e ≤ a * (1 - cfg.max_daily_drawdown_pct))
      ∧ (check_daily_loss_guard cfg dayOf now (some e) st).2 = st) := by
  refine ⟨?_, ?_, ?_⟩
  · intro cfg dayOf now equity st h
    simp only [check_daily_loss_guard, if_pos h]
  · intro cfg dayOf now e st hpos hfresh
    have hnle : ¬ cfg.max_daily_drawdown_pct ≤ 0 := not_le.mpr hpos
    simp only [check_daily_loss_guard, if_neg hnle]
    rcases hfresh with hnone | hreset
    · by_cases hr : st.day_anchor_ts ≠ 0 ∧ dayOf st.day_anchor_ts ≠ dayOf now
      · simp [hr]
      · simp [hr, hnone]
    · simp [hreset]
  · intro cfg dayOf now e a st hpos hsome hsame
    have hnle : ¬ cfg.max_daily_drawdown_pct ≤ 0 := not_le.mpr hpos
    have hr : ¬ (st.day_anchor_ts ≠ 0 ∧ dayOf st.day_anchor_ts ≠ dayOf now) := by
      intro hc
      exact hc.2 hsame
    simp only [check_daily_loss_guard, if_neg hnle, if_neg hr, hsome]
    constructor
    · by_cases hlim : e ≤ a * (1 - cfg.max_daily_drawdown_pct)
      · simp [hlim]
      · simp [hlim]
    · by_cases hlim : e ≤ a * (1 - cfg.max_daily_drawdown_pct)
      · simp [hlim]
      · simp [hlim]

/-- Witness for C10: with a 10% daily limit, an anchor of 100 set earlier the
same day, and equity exactly at the limit 90, the guard halts. -/
theorem C10_daily_guard_witness :
    (check_daily_loss_guard ⟨0, 0, 0, 0, 0, 1/10⟩ id 5 (some 90) ⟨5, some 100⟩).1 = false := by
  exact ((C10_daily_guard.2.2 ⟨0, 0, 0, 0, 0, 1/10⟩ id 5 90 100 ⟨5, some 100⟩
    (by norm_num) rfl rfl).1).mpr (by norm_num)

/-- C4: The backtest exit decision follows the fixed precedence with the
first match winning: `px ≥ tp_price` gives TP; otherwise `px ≤ sl_price`
gives SL; otherwise `px ≤ highest*(1-trailing_stop_pct)` gives TRAIL; in
particular a price satisfying both the TP and the SL condition closes with
reason TP.  The live `manage_positions` decision likewise checks TP first, so
the same tie also closes with its TP reason there. -/
theorem C4_exit_reason_precedence :
    ∀ (cfg : BTCfg) (pos : Position) (px : ℚ),
      (px ≥ pos.tp_price → exitReason cfg pos px = some .TP)
      ∧ (px < pos.tp_price → px ≤ pos.sl_price → exitReason cfg pos px = some .SL)
      ∧ (px < pos.tp_price → pos.sl_price < px →
          px ≤ max pos.highest px * (1 - cfg.trailing_stop_pct) →
          exitReason cfg pos px = some .TRAIL)
      ∧ (px < pos.tp_price → pos.sl_price < px →
          max pos.highest px * (1 - cfg.trailing_stop_pct) < px →
          exitReason cfg pos px = none)
      ∧ (px ≥ pos.tp_price → px ≤ pos.sl_price → exitReason cfg pos px = some .TP)
      ∧ (∀ tp sl trail price : ℚ, price ≥ tp → price ≤ sl →
          liveExitReason tp sl trail price = some "TP hit") := by
  intro cfg pos px
  refine ⟨?_, ?_, ?_, ?_, ?_, ?_⟩
  · intro h
    simp only [exitReason, if_pos h]
  · intro h1 h2
    simp only [exitReason, if_neg (not_le.mpr h1), if_pos h2]
  · intro h1 h2 h3
    simp only [exitReason, if_neg (not_le.mpr h1), if_neg (not_le.mpr h2), if_pos h3]
  · intro h1 h2 h3
    simp only [exitReason, if_neg (not_le.mpr h1), if_neg (not_le.mpr h2),
      if_neg (not_le.mpr h3)]
  · intro h _
    simp only [exitReason, if_pos h]
  · intro tp sl trail price h1 _
    simp only [liveExitReason, if_pos h1]

/-- Witness for C4: a tick at 100 against `tp_price = 100` and `sl_price =
100` satisfies both the TP and the SL condition and closes with reason TP. -/
theorem C4_exit_reason_precedence_witness :
    (100 : ℚ) ≥ (⟨.momentum, 95, 1, 0, 100, 100, 95, 0⟩ : Position).tp_price
    ∧ (100 : ℚ) ≤ (⟨.momentum, 95, 1, 0, 100, 100, 95, 0⟩ : Position).sl_price
    ∧ exitReason ⟨0, 0, 0, 0, 0, 0, 0, 0, 0, 0, 0, 0, 0⟩
        ⟨.momentum, 95, 1, 0, 100, 100, 95, 0⟩ 100 = some .TP := by
  refine ⟨by norm_num, by norm_num, ?_⟩
  exact (C4_exit_reason_precedence ⟨0, 0, 0, 0, 0, 0, 0, 0, 0, 0, 0, 0, 0⟩
    ⟨.momentum, 95, 1, 0, 100, 100, 95, 0⟩ 100).2.2.2.2.1 (by norm_num) (by norm_num)

/-- C2 (code evaluated at the failing input): `close_position` is guarded by
mere presence of the pid, not by its status, so closing a pid whose stored
position is already closed credits the strategy balance a second time and
appends a second exit ledger event - it is not a no-op. -/
theorem C2_double_close_credits_again :
    get_balance (close_position 1000
      ⟨[("1", ⟨"BTCUSDT", "momentum", 100, 1, .closed⟩)], [("momentum", 500)],
        [⟨"exit", "1", 50⟩]⟩ "1" 50) "momentum" = 550
    ∧ (close_position 1000
      ⟨[("1", ⟨"BTCUSDT", "momentum", 100, 1, .closed⟩)], [("momentum", 500)],
        [⟨"exit", "1", 50⟩]⟩ "1" 50).ledger
      = [⟨"exit", "1", 50⟩, ⟨"exit", "1", 50⟩]
    ∧ get_balance (⟨[("1", ⟨"BTCUSDT", "momentum", 100, 1, .closed⟩)], [("momentum", 500)],
        [⟨"exit", "1", 50⟩]⟩ : PState) "momentum" = 500 := by
  refine ⟨?_, ?_, ?_⟩ <;>
    norm_num [get_balance, close_position, update_balance, assocGetD, assocSet,
      ledgerAppend, List.lookup]

/-- C9 (backtest side): before the bar loop runs a single tick, each
strategy balance equals `initial_balance` times its normalised weight, and
when the configured weights do not sum to zero the two splits sum back to
`initial_balance`. -/
theorem C9_backtest_weighted_split :
    ∀ (cfg : BTCfg) (bars : List Bar),
      foldTicks cfg bars 0 = initState cfg
      ∧ (initState cfg).balances .momentum
          = cfg.initial_balance * (cfg.weight_momentum / swSum cfg)
      ∧ (initState cfg).balances .ma
          = cfg.initial_balance * (cfg.weight_ma / swSum cfg)
      ∧ (cfg.weight_momentum + cfg.weight_ma ≠ 0 →
          totalCash (initState cfg) = cfg.initial_balance) := by
  intro cfg bars
  refine ⟨rfl, rfl, rfl, ?_⟩
  intro h
  simp only [totalCash, initState, wNorm, rawWeight, swSum, if_neg h]
  field_simp
  ring

/-- Witness for C9: a 1000 starting capital split 1/2 and 1/2 sums back to
1000. -/
theorem C9_backtest_weighted_split_witness :
    totalCash (initState ⟨1000, 1/2, 1/2, 1/10, 1/20, 1/50, 1/100, 0, 0, 0, 10, 15, 3⟩)
      = 1000 := by
  exact (C9_backtest_weighted_split
    ⟨1000, 1/2, 1/2, 1/10, 1/20, 1/50, 1/100, 0, 0, 0, 10, 15, 3⟩ []).2.2.2 (by norm_num)

/-- C9 (live side, counterexample): a freshly initialised `PortfolioManager`
holds an empty balances map, so the first `get_balance` read for a configured
strategy returns `0.0`, not the weighted split share (500 for a 1000 capital
with equal weights). -/
theorem C9_live_first_read_is_zero :
    get_balance freshPState "momentum" = 0
    ∧ (⟨1000, 1/2, 1/2, 1/10, 1/20, 1/50, 1/100, 0, 0, 0, 10, 15, 3⟩ : BTCfg).initial_balance
        * wNorm ⟨1000, 1/2, 1/2, 1/10, 1/20, 1/50, 1/100, 0, 0, 0, 10, 15, 3⟩ .momentum = 500
    ∧ (0 : ℚ) ≠ 500 := by
  refine ⟨rfl, ?_, by norm_num⟩
  norm_num [wNorm, rawWeight, swSum]

/-- C3 (live side, counterexample): `PortfolioManager.update_balance` adds
the pnl unconditionally, so a loss larger than the stored balance drives the
strategy balance below zero instead of being refused. -/
theorem C3_live_update_balance_goes_negative :
    get_balance (update_balance 1000 ⟨[], [("momentum", 500)], []⟩ (-600) "momentum")
        "momentum" = -100
    ∧ ((-100 : ℚ) < 0) := by
  constructor
  · norm_num [get_balance, update_balance, assocGetD, assocSet]
  · norm_num

/-- C5 (counterexample): a tick at 106 hits TP, and the exit loop credits
`106*qty*(1 - taker_fee_pct)` computed from the raw tick price - the
slippage-adjusted credit `106*(1-slippage_pct)*qty*(1-taker_fee_pct)` the
claim requires is a different number. -/
theorem C5_exit_credit_has_no_slippage :
    exitReason cfgE posE 106 = some .TP
    ∧ (exitStep cfgE 106 stE).balances .momentum
        = 500 + (106 * 1 - 106 * 1 * (1/2500))
    ∧ (500 : ℚ) + (106 * 1 - 106 * 1 * (1/2500))
        ≠ 500 + (106 * (1 - 1/2000) * 1 - 106 * (1 - 1/2000) * 1 * (1/2500)) := by
  refine ⟨?_, ?_, by norm_num⟩
  · norm_num [exitReason, cfgE, posE]
  · norm_num [exitStep, exitLoop, exitOne, exitReason, updS, cfgE, posE, stE]

/-- C5 (amended): whenever the exit loop closes a position on a TP, SL or
TRAIL match at tick price `px`, the strategy balance is credited
`px*qty - px*qty*taker_fee_pct` (the raw tick price with the taker fee on
proceeds, no slippage adjustment), and the logged pnl is that credit minus
`entry_price*qty + entry_fee`. -/
theorem C5_exit_settlement_credit_and_pnl :
    ∀ (cfg : BTCfg) (st : BTState) (pos : Position) (px : ℚ) (r : ExitKind),
      st.openPositions = [pos] →
      exitReason cfg pos px = some r →
      (exitStep cfg px st).balances pos.strategy
          = st.balances pos.strategy + (px * pos.qty - px * pos.qty * cfg.taker_fee_pct)
      ∧ (exitStep cfg px st).exits
          = st.exits ++ [⟨pos.strategy, r, px,
              (px * pos.qty - px * pos.qty * cfg.taker_fee_pct)
                - (pos.entry_price * pos.qty + pos.entry_fee)⟩]
      ∧ (exitStep cfg px st).openPositions = [] := by
  intro cfg st pos px r hopen hr
  simp only [exitStep, hopen, exitLoop, exitOne, hr]
  refine ⟨?_, ?_, ?_⟩ <;> simp [updS]

/-- Witness for C5: the amended settlement rule evaluated on `posE` at tick
price 106. -/
theorem C5_exit_settlement_witness :
    (exitStep cfgE 106 stE).balances posE.strategy
      = stE.balances posE.strategy + (106 * posE.qty - 106 * posE.qty * cfgE.taker_fee_pct) := by
  exact (C5_exit_settlement_credit_and_pnl cfgE stE posE 106 .TP rfl
    (by norm_num [exitReason, cfgE, posE])).1

/-- C1 (live side, counterexample): with `per_trade_pct = 100`,
`per_trade_risk_pct = 100` and `taker_fee_pct = 0.0004`,
`compute_position_size_by_risk` on balance 1000, entry 10, stop 9 returns
the full allocation cap 100, whose cost `100*10*(1+0.0004) = 1000.4` exceeds
the balance; no shrink to `balance/(entry*(1+fee))` is performed. -/
theorem C1_live_sizing_exceeds_balance :
    compute_position_size_by_risk ⟨1, 1, 1/20, 1/50, 1/2500, 0⟩ 1000 10 9 = 100
    ∧ ¬((100 : ℚ) * 10 * (1 + 1/2500) ≤ 1000)
    ∧ (100 : ℚ) ≠ 1000 / (10 * (1 + 1/2500)) := by
  refine ⟨?_, by norm_num, by norm_num⟩
  norm_num [compute_position_size_by_risk, round_qty, roundq8, round_eq,
    abs_of_nonneg, min_def, max_def]

/-- C1 (amended, backtest side): every position actually opened by `do_enter`
satisfies `qty*entry_price*(1+taker_fee_pct) ≤ balance`, and whenever the
allocation-sized quantity's cost would exceed the balance the opened quantity
is exactly `balance/(entry*(1+taker_fee_pct))`. -/
theorem C1_backtest_entry_affordability :
    ∀ (cfg : BTCfg) (st : BTState) (i : ℕ) (px : ℚ) (s : Strategy) (pos : Position),
      (doEnter cfg st i px s).openPositions = st.openPositions ++ [pos] →
      pos.qty * pos.entry_price * (1 + cfg.taker_fee_pct) ≤ st.balances s
      ∧ (px * (1 + cfg.slippage_pct) * (st.balances s * cfg.per_trade_pct / (px * (1 + cfg.slippage_pct)))
          + px * (1 + cfg.slippage_pct) * (st.balances s * cfg.per_trade_pct / (px * (1 + cfg.slippage_pct)))
            * cfg.taker_fee_pct > st.balances s →
          pos.qty = st.balances s / (px * (1 + cfg.slippage_pct) * (1 + cfg.taker_fee_pct))) := by
  intro cfg st i px s pos h
  simp only [doEnter] at h
  split_ifs at h with h1 h2 h3 h4
  · exact absurd (congrArg List.length h) (by simp)
  · exact absurd (congrArg List.length h) (by simp)
  · dsimp only at h
    have e := List.append_cancel_left h
    simp only [List.cons.injEq, and_true] at e
    rw [← e]
    dsimp only
    push_neg at h3
    constructor
    · have hle := h3.2
      nlinarith [hle]
    · intro _
      rfl
  · exact absurd (congrArg List.length h) (by simp)
  · dsimp only at h
    have e := List.append_cancel_left h
    simp only [List.cons.injEq, and_true] at e
    rw [← e]
    dsimp only
    push_neg at h4
    constructor
    · have hle := h4.2
      nlinarith [hle]
    · intro hc
      exact absurd hc h2

/-- Unfolding one iteration of the bar loop. -/
theorem foldTicks_succ (cfg : BTCfg) (bars : List Bar) (n : ℕ) :
    foldTicks cfg bars (n + 1) = tickStep cfg bars (foldTicks cfg bars n) n := by
  simp [foldTicks, List.range_succ]

/-- The last element (with default) of a list of nonnegative rationals is
nonnegative. -/
theorem getLastD_nonneg :
    ∀ (l : List ℚ) (d : ℚ), 0 ≤ d → (∀ x ∈ l, 0 ≤ x) → 0 ≤ l.getLastD d := by
  intro l
  induction l with
  | nil => intro d hd _; simpa using hd
  | cons a as ih =>
    intro d _ h
    rw [List.getLastD_cons]
    exact ih a (h a (by simp)) fun x hx => h x (by simp [hx])

/-- One exit-loop step keeps balances nonnegative and open quantities
nonnegative. -/
theorem exitOne_nonneg (cfg : BTCfg) (px : ℚ) (acc : BTState) (pos : Position)
    (hpx : 0 ≤ px) (hf1 : cfg.taker_fee_pct ≤ 1)
    (hb : ∀ s, 0 ≤ acc.balances s) (hq : ∀ p ∈ acc.openPositions, 0 ≤ p.qty)
    (hposq : 0 ≤ pos.qty) :
    (∀ s, 0 ≤ (exitOne cfg px acc pos).balances s)
    ∧ (∀ p ∈ (exitOne cfg px acc pos).openPositions, 0 ≤ p.qty) := by
  have hcredit : 0 ≤ px * pos.qty - px * pos.qty * cfg.taker_fee_pct := by
    nlinarith [mul_nonneg hpx hposq, mul_nonneg (mul_nonneg hpx hposq) (sub_nonneg.mpr hf1)]
  cases hrc : exitReason cfg pos px with
  | some r =>
    constructor
    · intro s
      simp only [exitOne, hrc, updS]
      by_cases hs : s = pos.strategy
      · simp only [if_pos hs]
        exact add_nonneg (hb _) hcredit
      · simp only [if_neg hs]
        exact hb s
    · intro p hp
      simp only [exitOne, hrc] at hp
      exact hq p hp
  | none =>
    constructor
    · intro s
      simp only [exitOne, hrc]
      exact hb s
    · intro p hp
      simp only [exitOne, hrc] at hp
      rcases List.mem_append.mp hp with h | h
      · exact hq p h
      · simp only [List.mem_singleton] at h
        subst h
        exact hposq

/-- The whole exit loop keeps balances nonnegative and open quantities
nonnegative. -/
theorem exitLoop_nonneg (cfg : BTCfg) (px : ℚ)
    (hpx : 0 ≤ px) (hf1 : cfg.taker_fee_pct ≤ 1) :
    ∀ (ps : List Position) (acc : BTState),
      (∀ s, 0 ≤ acc.balances s) → (∀ p ∈ acc.openPositions, 0 ≤ p.qty) →
      (∀ p ∈ ps, 0 ≤ p.qty) →
      (∀ s, 0 ≤ (exitLoop cfg px ps acc).balances s)
      ∧ (∀ p ∈ (exitLoop cfg px ps acc).openPositions, 0 ≤ p.qty) := by
  intro ps
  induction ps with
  | nil => intro acc hb hq _; exact ⟨hb, hq⟩
  | cons pos rest ih =>
    intro acc hb hq hps
    have hstep := exitOne_nonneg cfg px acc pos hpx hf1 hb hq (hps pos (by simp))
    exact ih (exitOne cfg px acc pos) hstep.1 hstep.2 fun p hp => hps p (by simp [hp])

/-- `do_enter` keeps balances nonnegative and open quantities nonnegative:
the debit is guarded to never exceed the balance, and a non-positive quantity
is refused. -/
theorem doEnter_nonneg (cfg : BTCfg) (st : BTState) (i : ℕ) (px : ℚ) (s : Strategy)
    (hb : ∀ t, 0 ≤ st.balances t) (hq : ∀ p ∈ st.openPositions, 0 ≤ p.qty) :
    (∀ t, 0 ≤ (doEnter cfg st i px s).balances t)
    ∧ (∀ p ∈ (doEnter cfg st i px s).openPositions, 0 ≤ p.qty) := by
  simp only [doEnter]
  split_ifs with h1 h2 h3 h4
  · exact ⟨hb, hq⟩
  · exact ⟨hb, hq⟩
  · push_neg at h3
    constructor
    · intro t
      simp only [updS]
      by_cases ht : t = s
      · simp only [if_pos ht]
        have := h3.2
        linarith
      · simp only [if_neg ht]
        exact hb t
    · intro p hp
      simp only at hp
      rcases List.mem_append.mp hp with h | h
      · exact hq p h
      · simp only [List.mem_singleton] at h
        subst h
        exact le_of_lt h3.1
  · exact ⟨hb, hq⟩
  · push_neg at h4
    constructor
    · intro t
      simp only [updS]
      by_cases ht : t = s
      · simp only [if_pos ht]
        have := h4.2
        linarith
      · simp only [if_neg ht]
        exact hb t
    · intro p hp
      simp only at hp
      rcases List.mem_append.mp hp with h | h
      · exact hq p h
      · simp only [List.mem_singleton] at h
        subst h
        exact le_of_lt h4.1

/-- The exit phase keeps balances nonnegative and open quantities
nonnegative. -/
theorem exitStep_nonneg (cfg : BTCfg) (px : ℚ) (st : BTState)
    (hpx : 0 ≤ px) (hf1 : cfg.taker_fee_pct ≤ 1)
    (hb : ∀ s, 0 ≤ st.balances s) (hq : ∀ p ∈ st.openPositions, 0 ≤ p.qty) :
    (∀ s, 0 ≤ (exitStep cfg px st).balances s)
    ∧ (∀ p ∈ (exitStep cfg px st).openPositions, 0 ≤ p.qty) := by
  exact exitLoop_nonneg cfg px hpx hf1 st.openPositions { st with openPositions := [] }
    hb (by simp) hq

/-- The entry phase keeps balances nonnegative and open quantities
nonnegative. -/
theorem entryPhase_nonneg (cfg : BTCfg) (closes : List ℚ) (i : ℕ) (px : ℚ) (st : BTState)
    (hb : ∀ s, 0 ≤ st.balances s) (hq : ∀ p ∈ st.openPositions, 0 ≤ p.qty) :
    (∀ s, 0 ≤ (entryPhase cfg closes i px st).balances s)
    ∧ (∀ p ∈ (entryPhase cfg closes i px st).openPositions, 0 ≤ p.qty) := by
  simp only [entryPhase]
  split_ifs with h1 h2 h3
  · have hm := doEnter_nonneg cfg st i px .momentum hb hq
    exact doEnter_nonneg cfg _ i px .ma hm.1 hm.2
  · exact doEnter_nonneg cfg st i px .momentum hb hq
  · exact doEnter_nonneg cfg st i px .ma hb hq
  · exact ⟨hb, hq⟩

/-- One whole tick keeps balances nonnegative and open quantities
nonnegative, provided the bar closes are nonnegative and the taker fee is at
most 1. -/
theorem tickStep_nonneg (cfg : BTCfg) (bars : List Bar) (st : BTState) (i : ℕ)
    (hclose : ∀ b ∈ bars, 0 ≤ b.close) (hf1 : cfg.taker_fee_pct ≤ 1)
    (hb : ∀ s, 0 ≤ st.balances s) (hq : ∀ p ∈ st.openPositions, 0 ≤ p.qty) :
    (∀ s, 0 ≤ (tickStep cfg bars st i).balances s)
    ∧ (∀ p ∈ (tickStep cfg bars st i).openPositions, 0 ≤ p.qty) := by
  have hpx : 0 ≤ ((bars.take (i + 1)).map Bar.close).getLastD 0 := by
    refine getLastD_nonneg _ _ le_rfl ?_
    intro x hx
    rcases List.mem_map.mp hx with ⟨b, hbmem, rfl⟩
    exact hclose b (List.take_subset _ _ hbmem)
  have hstep := exitStep_nonneg cfg _ st hpx hf1 hb hq
  simp only [tickStep]
  split
  · exact ⟨hstep.1, hstep.2⟩
  · split_ifs with hmin
    · exact ⟨hstep.1, hstep.2⟩
    · exact entryPhase_nonneg cfg _ i _ _ hstep.1 hstep.2

/-- Every prefix of the bar loop keeps balances nonnegative and open
quantities nonnegative. -/
theorem foldTicks_nonneg (cfg : BTCfg) (bars : List Bar)
    (hI : 0 ≤ cfg.initial_balance) (hwm : 0 ≤ cfg.weight_momentum)
    (hwa : 0 ≤ cfg.weight_ma) (hf1 : cfg.taker_fee_pct ≤ 1)
    (hclose : ∀ b ∈ bars, 0 ≤ b.close) :
    ∀ n : ℕ, (∀ s, 0 ≤ (foldTicks cfg bars n).balances s)
      ∧ (∀ p ∈ (foldTicks cfg bars n).openPositions, 0 ≤ p.qty) := by
  intro n
  induction n with
  | zero =>
    constructor
    · intro s
      have hsw : 0 ≤ swSum cfg := by
        simp only [swSum]
        split_ifs with h
        · norm_num
        · exact add_nonneg hwm hwa
      have hraw : 0 ≤ rawWeight cfg s := by
        cases s
        · simpa [rawWeight] using hwm
        · simpa [rawWeight] using hwa
      exact mul_nonneg hI (div_nonneg hraw hsw)
    · intro p hp
      simp [foldTicks, initState] at hp
  | succ n ih =>
    rw [foldTicks_succ]
    exact tickStep_nonneg cfg bars _ n hclose hf1 ih.1 ih.2

/-- One force-exit step keeps balances nonnegative, provided the final price
is nonnegative and slippage and taker fee are at most 1. -/
theorem forceOne_nonneg (cfg : BTCfg) (lastPx : ℚ) (acc : BTState) (pos : Position)
    (hlast : 0 ≤ lastPx) (hs1 : cfg.slippage_pct ≤ 1) (hf1 : cfg.taker_fee_pct ≤ 1)
    (hb : ∀ s, 0 ≤ acc.balances s) (hposq : 0 ≤ pos.qty) :
    ∀ s, 0 ≤ (forceOne cfg lastPx acc pos).balances s := by
  have hex : 0 ≤ lastPx * (1 - cfg.slippage_pct) :=
    mul_nonneg hlast (sub_nonneg.mpr hs1)
  have hcredit : 0 ≤ lastPx * (1 - cfg.slippage_pct) * pos.qty
      - lastPx * (1 - cfg.slippage_pct) * pos.qty * cfg.taker_fee_pct := by
    nlinarith [mul_nonneg hex hposq, mul_nonneg (mul_nonneg hex hposq) (sub_nonneg.mpr hf1)]
  intro s
  simp only [forceOne, updS]
  by_cases hs : s = pos.strategy
  · simp only [if_pos hs]
    have := hb pos.strategy
    linarith
  · simp only [if_neg hs]
    exact hb s

/-- The force-exit loop keeps balances nonnegative. -/
theorem forceLoop_nonneg (cfg : BTCfg) (lastPx : ℚ)
    (hlast : 0 ≤ lastPx) (hs1 : cfg.slippage_pct ≤ 1) (hf1 : cfg.taker_fee_pct ≤ 1) :
    ∀ (ps : List Position) (acc : BTState),
      (∀ s, 0 ≤ acc.balances s) → (∀ p ∈ ps, 0 ≤ p.qty) →
      ∀ s, 0 ≤ (forceLoop cfg lastPx ps acc).balances s := by
  intro ps
  induction ps with
  | nil => intro acc hb _; exact hb
  | cons pos rest ih =>
    intro acc hb hps
    exact ih (forceOne cfg lastPx acc pos)
      (forceOne_nonneg cfg lastPx acc pos hlast hs1 hf1 hb (hps pos (by simp)))
      fun p hp => hps p (by simp [hp])

/-- C3 (amended): in the backtest engine every strategy balance is
nonnegative at every tick boundary and stays so through the force-exit pass,
and `do_enter` either leaves the state unchanged (a refused entry is a no-op)
or debits an amount `qty*entry_price*(1+taker_fee_pct)` that never exceeds
the balance.  (The live `PortfolioManager.update_balance`, by contrast,
credits unconditionally - see the counterexample.) -/
theorem C3_backtest_balance_nonneg :
    ∀ (cfg : BTCfg) (bars : List Bar),
      0 ≤ cfg.initial_balance → 0 ≤ cfg.weight_momentum → 0 ≤ cfg.weight_ma →
      cfg.taker_fee_pct ≤ 1 → cfg.slippage_pct ≤ 1 →
      (∀ b ∈ bars, 0 ≤ b.close) →
      (∀ (n : ℕ) (s : Strategy), 0 ≤ (foldTicks cfg bars n).balances s)
      ∧ (∀ s : Strategy,
          0 ≤ (forceExit cfg ((bars.map Bar.close).getLastD 0)
                (foldTicks cfg bars bars.length)).balances s)
      ∧ (∀ (st : BTState) (i : ℕ) (px : ℚ) (s : Strategy),
          doEnter cfg st i px s = st ∨
          ∃ pos, (doEnter cfg st i px s).openPositions = st.openPositions ++ [pos]
            ∧ (doEnter cfg st i px s).balances s
                = st.balances s - pos.qty * pos.entry_price * (1 + cfg.taker_fee_pct)
            ∧ pos.qty * pos.entry_price * (1 + cfg.taker_fee_pct) ≤ st.balances s) := by
  intro cfg bars hI hwm hwa hf1 hs1 hclose
  have hfold := foldTicks_nonneg cfg bars hI hwm hwa hf1 hclose
  have hlast : 0 ≤ (bars.map Bar.close).getLastD 0 := by
    refine getLastD_nonneg _ _ le_rfl ?_
    intro x hx
    rcases List.mem_map.mp hx with ⟨b, hbmem, rfl⟩
    exact hclose b hbmem
  refine ⟨fun n s => (hfold n).1 s, ?_, ?_⟩
  · intro s
    simp only [forceExit]
    exact forceLoop_nonneg cfg _ hlast hs1 hf1
      (foldTicks cfg bars bars.length).openPositions
      { foldTicks cfg bars bars.length with openPositions := [] }
      (hfold bars.length).1 (hfold bars.length).2 s
  · intro st i px s
    simp only [doEnter]
    split_ifs with h1 h2 h3 h4
    · exact Or.inl rfl
    · exact Or.inl rfl
    · refine Or.inr ⟨_, rfl, ?_, ?_⟩
      · simp only [updS, if_true]
        ring
      · push_neg at h3
        have := h3.2
        nlinarith [this]
    · exact Or.inl rfl
    · refine Or.inr ⟨_, rfl, ?_, ?_⟩
      · simp only [updS, if_true]
        ring
      · push_neg at h4
        have := h4.2
        nlinarith [this]

/-- Witness for C3: a one-bar run with the default configuration keeps the
momentum balance nonnegative. -/
theorem C3_backtest_balance_nonneg_witness :
    0 ≤ (foldTicks ⟨1000, 1/2, 1/2, 1/10, 1/20, 1/50, 1/100, 1/2500, 1/2000, 1/2000, 10, 15, 3⟩
        [⟨1, 1, 1⟩] 1).balances .momentum := by
  exact (C3_backtest_balance_nonneg
    ⟨1000, 1/2, 1/2, 1/10, 1/20, 1/50, 1/100, 1/2500, 1/2000, 1/2000, 10, 15, 3⟩
    [⟨1, 1, 1⟩] (by norm_num) (by norm_num) (by norm_num) (by norm_num) (by norm_num)
    (by intro b hb; simp at hb; subst hb; norm_num)).1 1 .momentum

/-- Witness for C1: with the default configuration (fees and slippage zeroed
for exactness), an entry at price 100 from a 1000 balance opens qty 1 at
entry 100, costing at most the balance. -/
theorem C1_backtest_entry_affordability_witness :
    (⟨.momentum, 100, 1, 0, 105, 98, 100, 0⟩ : Position).qty
        * (⟨.momentum, 100, 1, 0, 105, 98, 100, 0⟩ : Position).entry_price
        * (1 + (⟨1000, 1/2, 1/2, 1/10, 1/20, 1/50, 1/100, 0, 0, 0, 10, 15, 3⟩ : BTCfg).taker_fee_pct)
      ≤ (⟨fun _ => 1000, [], fun _ => none, fun _ => 0, [], []⟩ : BTState).balances .momentum := by
  refine (C1_backtest_entry_affordability
    ⟨1000, 1/2, 1/2, 1/10, 1/20, 1/50, 1/100, 0, 0, 0, 10, 15, 3⟩
    ⟨fun _ => 1000, [], fun _ => none, fun _ => 0, [], []⟩ 0 100 .momentum
    ⟨.momentum, 100, 1, 0, 105, 98, 100, 0⟩ ?_).1
  norm_num [doEnter, Position.mk.injEq]

/-- Left component of a true boolean conjunction. -/
theorem bool_and_left {a b : Bool} (h : (a && b) = true) : a = true := by
  cases a <;> simp_all

/-- The exit loop never duplicates a strategy among open positions: it only
drops positions or rewrites their `highest`. -/
theorem exitLoop_noDup (cfg : BTCfg) (px : ℚ) :
    ∀ (ps : List Position) (acc : BTState),
      noDupStrat (acc.openPositions ++ ps) →
      noDupStrat (exitLoop cfg px ps acc).openPositions := by
  intro ps
  induction ps with
  | nil => intro acc h; simpa [noDupStrat] using h
  | cons pos rest ih =>
    intro acc h
    apply ih
    cases hrc : exitReason cfg pos px with
    | some r =>
      simp only [exitOne, hrc]
      refine List.Pairwise.sublist ?_ h
      exact List.Sublist.append_left ((List.Sublist.refl _).cons _) _
    | none =>
      simp only [exitOne, hrc]
      rw [List.append_assoc, List.singleton_append]
      simp only [noDupStrat, List.pairwise_append, List.pairwise_cons] at h ⊢
      refine ⟨h.1, h.2.1, ?_⟩
      intro a ha b hb
      rcases List.mem_cons.mp hb with rfl | hb'
      · exact h.2.2 a ha pos (List.mem_cons_self _ _)
      · exact h.2.2 a ha b (List.mem_cons_of_mem _ hb')

/-- `do_enter` under a true `can_enter` keeps strategies pairwise distinct:
the guard refuses a second open of the same strategy. -/
theorem doEnter_noDup (cfg : BTCfg) (st : BTState) (i : ℕ) (px : ℚ) (s : Strategy)
    (hce : canEnter cfg st i s = true) (h : noDupStrat st.openPositions) :
    noDupStrat (doEnter cfg st i px s).openPositions := by
  simp only [canEnter, Bool.and_eq_true, Bool.not_eq_true', List.any_eq_false,
    decide_eq_true_eq] at hce
  have h2 := hce.2
  simp only [doEnter]
  split_ifs with h1 hsh h3 h4
  · exact h
  · exact h
  · rw [noDupStrat, List.pairwise_append]
    refine ⟨h, List.pairwise_singleton _ _, ?_⟩
    intro a ha b hb
    simp only [List.mem_singleton] at hb
    subst hb
    exact h2 a ha
  · exact h
  · rw [noDupStrat, List.pairwise_append]
    refine ⟨h, List.pairwise_singleton _ _, ?_⟩
    intro a ha b hb
    simp only [List.mem_singleton] at hb
    subst hb
    exact h2 a ha

/-- The entry phase keeps strategies pairwise distinct. -/
theorem entryPhase_noDup (cfg : BTCfg) (closes : List ℚ) (i : ℕ) (px : ℚ) (st : BTState)
    (h : noDupStrat st.openPositions) :
    noDupStrat (entryPhase cfg closes i px st).openPositions := by
  simp only [entryPhase]
  split_ifs with h1 h2 h3
  · exact doEnter_noDup cfg _ i px .ma (bool_and_left h2)
      (doEnter_noDup cfg st i px .momentum (bool_and_left h1) h)
  · exact doEnter_noDup cfg st i px .momentum (bool_and_left h1) h
  · exact doEnter_noDup cfg st i px .ma (bool_and_left h3) h
  · exact h

/-- One whole tick keeps strategies pairwise distinct among open
positions. -/
theorem tickStep_noDup (cfg : BTCfg) (bars : List Bar) (st : BTState) (i : ℕ)
    (h : noDupStrat st.openPositions) :
    noDupStrat (tickStep cfg bars st i).openPositions := by
  have hexit : noDupStrat
      (exitStep cfg (((bars.take (i + 1)).map Bar.close).getLastD 0) st).openPositions := by
    exact exitLoop_noDup cfg _ st.openPositions { st with openPositions := [] }
      (by simpa [noDupStrat] using h)
  simp only [tickStep]
  split
  · exact hexit
  · split_ifs with hmin
    · exact hexit
    · exact entryPhase_noDup cfg _ i _ _ hexit

/-- A list with pairwise distinct strategies has at most one element of each
strategy. -/
theorem noDupStrat_filter_le_one (s : Strategy) :
    ∀ l : List Position, noDupStrat l →
      (l.filter fun p => decide (p.strategy = s)).length ≤ 1 := by
  intro l
  induction l with
  | nil => intro _; simp
  | cons a l ih =>
    intro h
    rw [noDupStrat, List.pairwise_cons] at h
    by_cases ha : a.strategy = s
    · have hnil : l.filter (fun p => decide (p.strategy = s)) = [] := by
        refine List.filter_eq_nil_iff.mpr ?_
        intro b hb
        simp only [decide_eq_true_eq]
        intro hbs
        exact (h.1 b hb) (by rw [ha, hbs])
      rw [List.filter_cons_of_pos (by simp [ha]), hnil]
      simp
    · rw [List.filter_cons_of_neg (by simp [ha])]
      exact ih h.2

/-- The force-exit loop does not add open positions to its accumulator. -/
theorem forceLoop_open (cfg : BTCfg) (lastPx : ℚ) :
    ∀ (ps : List Position) (acc : BTState),
      (forceLoop cfg lastPx ps acc).openPositions = acc.openPositions := by
  intro ps
  induction ps with
  | nil => intro acc; rfl
  | cons p rest ih =>
    intro acc
    simp only [forceLoop]
    rw [ih]
    rfl

/-- The force-exit loop credits each strategy with exactly the forced-exit
proceeds of its positions. -/
theorem forceLoop_balances (cfg : BTCfg) (lastPx : ℚ) :
    ∀ (ps : List Position) (acc : BTState) (s : Strategy),
      (forceLoop cfg lastPx ps acc).balances s
        = acc.balances s + forcedCreditSum cfg lastPx s ps := by
  intro ps
  induction ps with
  | nil => intro acc s; simp [forceLoop, forcedCreditSum]
  | cons p rest ih =>
    intro acc s
    simp only [forceLoop, forcedCreditSum]
    rw [ih]
    by_cases hs : p.strategy = s
    · simp only [forceOne, updS]
      rw [if_pos hs.symm, if_pos hs, hs]
      ring
    · simp only [forceOne, updS]
      rw [if_neg fun hc => hs hc.symm, if_neg hs]
      ring

/-- C8: a completed backtest run on a nonempty bar list ends with zero open
positions: every position still open after the last bar is settled by the
force-exit pass at `final_close*(1-slippage_pct)` minus the exit taker fee
(no TP/SL/TRAIL check is consulted), its strategy balance is credited those
proceeds, and the summary's `final_balance` is the sum of the balances after
that pass. -/
theorem C8_backtest_ends_flat :
    ∀ (cfg : BTCfg) (bars : List Bar), bars ≠ [] →
      ∃ stF sm, runBacktest cfg bars = some (stF, sm)
        ∧ stF.openPositions = []
        ∧ (∀ s, stF.balances s
            = (foldTicks cfg bars bars.length).balances s
              + forcedCreditSum cfg ((bars.map Bar.close).getLastD 0) s
                  (foldTicks cfg bars bars.length).openPositions)
        ∧ sm.final_balance = totalCash stF
        ∧ sm.total_pnl = sm.final_balance - cfg.initial_balance := by
  intro cfg bars h
  have hne : ¬(bars.isEmpty = true) := by
    simpa [List.isEmpty_iff] using h
  simp only [runBacktest, if_neg hne]
  refine ⟨_, _, rfl, ?_, ?_, rfl, rfl⟩
  · simp only [forceExit]
    rw [forceLoop_open]
  · intro s
    simp only [forceExit]
    rw [forceLoop_balances]

/-- Witness for C8: a single-bar run is flat at the end. -/
theorem C8_backtest_ends_flat_witness :
    ∃ stF sm,
      runBacktest ⟨1000, 1/2, 1/2, 1/10, 1/20, 1/50, 1/100, 1/2500, 1/2000, 1/2000, 10, 15, 3⟩
        [⟨1, 1, 1⟩] = some (stF, sm)
      ∧ stF.openPositions = []
      ∧ (∀ s, stF.balances s
          = (foldTicks ⟨1000, 1/2, 1/2, 1/10, 1/20, 1/50, 1/100, 1/2500, 1/2000, 1/2000, 10, 15, 3⟩
              [⟨1, 1, 1⟩] ([⟨1, 1, 1⟩] : List Bar).length).balances s
            + forcedCreditSum ⟨1000, 1/2, 1/2, 1/10, 1/20, 1/50, 1/100, 1/2500, 1/2000, 1/2000, 10, 15, 3⟩
                ((([⟨1, 1, 1⟩] : List Bar).map Bar.close).getLastD 0) s
                (foldTicks ⟨1000, 1/2, 1/2, 1/10, 1/20, 1/50, 1/100, 1/2500, 1/2000, 1/2000, 10, 15, 3⟩
                  [⟨1, 1, 1⟩] ([⟨1, 1, 1⟩] : List Bar).length).openPositions)
      ∧ sm.final_balance = totalCash stF
      ∧ sm.total_pnl = sm.final_balance
          - (⟨1000, 1/2, 1/2, 1/10, 1/20, 1/50, 1/100, 1/2500, 1/2000, 1/2000, 10, 15, 3⟩ : BTCfg).initial_balance := by
  exact C8_backtest_ends_flat
    ⟨1000, 1/2, 1/2, 1/10, 1/20, 1/50, 1/100, 1/2500, 1/2000, 1/2000, 10, 15, 3⟩
    [⟨1, 1, 1⟩] (by simp)

/-- One exit-loop step never touches `last_entry_bar`. -/
theorem exitOne_lastEntryBar (cfg : BTCfg) (px : ℚ) (acc : BTState) (pos : Position) :
    (exitOne cfg px acc pos).lastEntryBar = acc.lastEntryBar := by
  cases hrc : exitReason cfg pos px <;> simp [exitOne, hrc]

/-- The exit loop never touches `last_entry_bar`. -/
theorem exitLoop_lastEntryBar (cfg : BTCfg) (px : ℚ) :
    ∀ (ps : List Position) (acc : BTState),
      (exitLoop cfg px ps acc).lastEntryBar = acc.lastEntryBar := by
  intro ps
  induction ps with
  | nil => intro acc; rfl
  | cons p rest ih =>
    intro acc
    simp only [exitLoop]
    rw [ih, exitOne_lastEntryBar]

/-- Every position left open by the exit loop either was already in the
accumulator or descends from a processed position with the same strategy,
entry index, quantity and entry price (only `highest` is rewritten). -/
theorem exitLoop_open_descends (cfg : BTCfg) (px : ℚ) :
    ∀ (ps : List Position) (acc : BTState) (pos : Position),
      pos ∈ (exitLoop cfg px ps acc).openPositions →
      pos ∈ acc.openPositions ∨ ∃ p0 ∈ ps, pos.strategy = p0.strategy
        ∧ pos.entry_index = p0.entry_index ∧ pos.qty = p0.qty
        ∧ pos.entry_price = p0.entry_price := by
  intro ps
  induction ps with
  | nil => intro acc pos hp; exact Or.inl hp
  | cons p rest ih =>
    intro acc pos hp
    rcases ih (exitOne cfg px acc p) pos hp with hmem | ⟨p0, hp0, hfs⟩
    · cases hrc : exitReason cfg p px with
      | some r =>
        simp only [exitOne, hrc] at hmem
        exact Or.inl hmem
      | none =>
        simp only [exitOne, hrc] at hmem
        rcases List.mem_append.mp hmem with hm | hm
        · exact Or.inl hm
        · simp only [List.mem_singleton] at hm
          subst hm
          exact Or.inr ⟨p, List.mem_cons_self _ _, rfl, rfl, rfl, rfl⟩
    · exact Or.inr ⟨p0, List.mem_cons_of_mem _ hp0, hfs⟩

/-- `do_enter` for one strategy never touches the other strategy's
`last_entry_bar` key. -/
theorem doEnter_lastEntryBar_other (cfg : BTCfg) (st : BTState) (i : ℕ) (px : ℚ)
    {t s : Strategy} (hts : t ≠ s) :
    (doEnter cfg st i px t).lastEntryBar s = st.lastEntryBar s := by
  simp only [doEnter]
  split_ifs with h1 h2 h3 h4
  · rfl
  · rfl
  · simp only [updS]
    rw [if_neg fun hc => hts hc.symm]
  · rfl
  · simp only [updS]
    rw [if_neg fun hc => hts hc.symm]

/-- Every position open after `do_enter` was open before, or belongs to the
entered strategy. -/
theorem doEnter_open_strategy (cfg : BTCfg) (st : BTState) (i : ℕ) (px : ℚ)
    (s : Strategy) (pos : Position) :
    pos ∈ (doEnter cfg st i px s).openPositions →
    pos ∈ st.openPositions ∨ pos.strategy = s := by
  simp only [doEnter]
  split_ifs with h1 h2 h3 h4
  · exact fun h => Or.inl h
  · exact fun h => Or.inl h
  · intro h
    rcases List.mem_append.mp h with hm | hm
    · exact Or.inl hm
    · simp only [List.mem_singleton] at hm
      subst hm
      exact Or.inr rfl
  · exact fun h => Or.inl h
  · intro h
    rcases List.mem_append.mp h with hm | hm
    · exact Or.inl hm
    · simp only [List.mem_singleton] at hm
      subst hm
      exact Or.inr rfl

/-- Within the cooldown window, `can_enter` is false. -/
theorem canEnter_false_of_cooldown (cfg : BTCfg) (st : BTState) (i : ℕ) (s : Strategy)
    (j : ℕ) (hj : st.lastEntryBar s = some j)
    (hlt : (i : ℤ) - (j : ℤ) < cfg.entry_cooldown_bars) :
    canEnter cfg st i s = false := by
  simp only [canEnter, hj]
  rw [decide_eq_false (not_le.mpr hlt)]
  simp

/-- Within the cooldown window for strategy `s`, the entry phase leaves `s`'s
`last_entry_bar` unchanged and opens no new `s`-position: every open
`s`-position afterwards was already open before the phase. -/
theorem entryPhase_blocked (cfg : BTCfg) (closes : List ℚ) (i : ℕ) (px : ℚ)
    (st : BTState) (s : Strategy) (j : ℕ)
    (hj : st.lastEntryBar s = some j)
    (hlt : (i : ℤ) - (j : ℤ) < cfg.entry_cooldown_bars) :
    (entryPhase cfg closes i px st).lastEntryBar s = some j
    ∧ ∀ pos ∈ (entryPhase cfg closes i px st).openPositions,
        pos.strategy = s → pos ∈ st.openPositions := by
  have hce : canEnter cfg st i s = false := canEnter_false_of_cooldown cfg st i s j hj hlt
  simp only [entryPhase]
  cases s with
  | momentum =>
    split_ifs with h1 h2 h3
    · exact absurd (bool_and_left h1) (by rw [hce]; simp)
    · exact absurd (bool_and_left h1) (by rw [hce]; simp)
    · constructor
      · rw [doEnter_lastEntryBar_other cfg st i px (by simp)]
        exact hj
      · intro pos hp hs
        rcases doEnter_open_strategy cfg st i px .ma pos hp with hm | hm
        · exact hm
        · rw [hs] at hm
          cases hm
    · exact ⟨hj, fun pos hp _ => hp⟩
  | ma =>
    split_ifs with h1 h2 h3
    · have hj2 : (doEnter cfg st i px .momentum).lastEntryBar .ma = some j := by
        rw [doEnter_lastEntryBar_other cfg st i px (by simp)]
        exact hj
      have : canEnter cfg (doEnter cfg st i px .momentum) i .ma = false :=
        canEnter_false_of_cooldown cfg _ i .ma j hj2 hlt
      exact absurd (bool_and_left h2) (by rw [this]; simp)
    · constructor
      · rw [doEnter_lastEntryBar_other cfg st i px (by simp)]
        exact hj
      · intro pos hp hs
        rcases doEnter_open_strategy cfg st i px .momentum pos hp with hm | hm
        · exact hm
        · rw [hs] at hm
          cases hm
    · exact absurd (bool_and_left h3) (by rw [hce]; simp)
    · exact ⟨hj, fun pos hp _ => hp⟩

/-- Within the cooldown window for strategy `s`, one whole tick leaves `s`'s
`last_entry_bar` unchanged and opens no new `s`-position: every open
`s`-position after the tick descends from one open before it. -/
theorem tickStep_cooldown_frame (cfg : BTCfg) (bars : List Bar) (st : BTState) (n : ℕ)
    (s : Strategy) (j : ℕ)
    (hj : st.lastEntryBar s = some j)
    (hlt : (n : ℤ) - (j : ℤ) < cfg.entry_cooldown_bars) :
    (tickStep cfg bars st n).lastEntryBar s = some j
    ∧ ∀ pos ∈ (tickStep cfg bars st n).openPositions, pos.strategy = s →
        ∃ p0 ∈ st.openPositions, p0.strategy = s
          ∧ p0.entry_index = pos.entry_index ∧ p0.qty = pos.qty
          ∧ p0.entry_price = pos.entry_price := by
  have hleb : (exitStep cfg (((bars.take (n + 1)).map Bar.close).getLastD 0) st).lastEntryBar
      = st.lastEntryBar := exitLoop_lastEntryBar cfg _ st.openPositions _
  have hdesc : ∀ pos ∈ (exitStep cfg (((bars.take (n + 1)).map Bar.close).getLastD 0)
        st).openPositions,
      ∃ p0 ∈ st.openPositions, pos.strategy = p0.strategy
        ∧ pos.entry_index = p0.entry_index ∧ pos.qty = p0.qty
        ∧ pos.entry_price = p0.entry_price := by
    intro pos hp
    rcases exitLoop_open_descends cfg _ st.openPositions { st with openPositions := [] } pos hp
      with hmem | hex
    · simp at hmem
    · exact hex
  have hj2 : (equitySnap (((bars.take (n + 1)).map Bar.close).getLastD 0)
      (exitStep cfg (((bars.take (n + 1)).map Bar.close).getLastD 0) st)).lastEntryBar s
      = some j := by
    show (exitStep cfg (((bars.take (n + 1)).map Bar.close).getLastD 0) st).lastEntryBar s
      = some j
    rw [hleb]
    exact hj
  simp only [tickStep]
  split
  · refine ⟨hj2, ?_⟩
    intro pos hp hs
    obtain ⟨p0, h0, hfs⟩ := hdesc pos hp
    exact ⟨p0, h0, by rw [← hfs.1]; exact hs, hfs.2.1.symm, hfs.2.2.1.symm, hfs.2.2.2.symm⟩
  · split_ifs with hmin
    · refine ⟨hj2, ?_⟩
      intro pos hp hs
      obtain ⟨p0, h0, hfs⟩ := hdesc pos hp
      exact ⟨p0, h0, by rw [← hfs.1]; exact hs, hfs.2.1.symm, hfs.2.2.1.symm, hfs.2.2.2.symm⟩
    · obtain ⟨hA, hB⟩ := entryPhase_blocked cfg ((bars.take (n + 1)).map Bar.close) n
        (((bars.take (n + 1)).map Bar.close).getLastD 0)
        (equitySnap (((bars.take (n + 1)).map Bar.close).getLastD 0)
          (exitStep cfg (((bars.take (n + 1)).map Bar.close).getLastD 0) st)) s j hj2 hlt
      refine ⟨hA, ?_⟩
      intro pos hp hs
      have hmem2 := hB pos hp hs
      obtain ⟨p0, h0, hfs⟩ := hdesc pos hmem2
      exact ⟨p0, h0, by rw [← hfs.1]; exact hs, hfs.2.1.symm, hfs.2.2.1.symm, hfs.2.2.2.symm⟩

/-- C6, the backtest driver (the half of the claim that holds - the live
`scan_and_trade` keeps no cooldown state at all, see
the next-poll re-entry theorem below): within `entry_cooldown_bars` ticks of
a strategy's last entry the tick opens nothing new for that strategy (its
`last_entry_bar` is unchanged and every open position of that strategy
descends from one already open), each loop iteration being `tickStep`; and
concretely, with cooldown 10 and a last entry at tick 10, `can_enter` is
false at tick 15 and true again at tick 20 once no position of the strategy
is open. -/
theorem C6_cooldown_blocks_reentry :
    (∀ (cfg : BTCfg) (bars : List Bar) (st : BTState) (n : ℕ) (s : Strategy) (j : ℕ),
        st.lastEntryBar s = some j →
        (n : ℤ) - (j : ℤ) < cfg.entry_cooldown_bars →
        (tickStep cfg bars st n).lastEntryBar s = some j
        ∧ ∀ pos ∈ (tickStep cfg bars st n).openPositions, pos.strategy = s →
            ∃ p0 ∈ st.openPositions, p0.strategy = s
              ∧ p0.entry_index = pos.entry_index ∧ p0.qty = pos.qty
              ∧ p0.entry_price = pos.entry_price)
    ∧ (∀ (cfg : BTCfg) (bars : List Bar) (n : ℕ),
        foldTicks cfg bars (n + 1) = tickStep cfg bars (foldTicks cfg bars n) n)
    ∧ (∀ (cfg : BTCfg) (st : BTState),
        cfg.entry_cooldown_bars = 10 → st.lastEntryBar .momentum = some 10 →
        canEnter cfg st 15 .momentum = false
        ∧ ((∀ p ∈ st.openPositions, p.strategy ≠ .momentum) →
            canEnter cfg st 20 .momentum = true)) := by
  refine ⟨?_, ?_, ?_⟩
  · intro cfg bars st n s j hj hlt
    exact tickStep_cooldown_frame cfg bars st n s j hj hlt
  · intro cfg bars n
    exact foldTicks_succ cfg bars n
  · intro cfg st hc hl
    constructor
    · exact canEnter_false_of_cooldown cfg st 15 .momentum 10 hl (by rw [hc]; norm_num)
    · intro hno
      have hany : (st.openPositions.any fun p => decide (p.strategy = Strategy.momentum))
          = false := by
        refine List.any_eq_false.mpr ?_
        intro p hp
        simpa using hno p hp
      simp only [canEnter, hl, hc, hany]
      norm_num

/-- Witness for C6: a fresh state whose momentum key recorded an entry at
tick 10 blocks a new momentum entry at tick 15 under cooldown 10. -/
theorem C6_cooldown_blocks_reentry_witness :
    canEnter ⟨1000, 1/2, 1/2, 1/10, 1/20, 1/50, 1/100, 1/2500, 1/2000, 1/2000, 10, 15, 3⟩
      ⟨fun _ => 500, [], fun s => if s = .momentum then some 10 else none, fun _ => 0, [], []⟩
      15 .momentum = false := by
  exact (C6_cooldown_blocks_reentry.2.2
    ⟨1000, 1/2, 1/2, 1/10, 1/20, 1/50, 1/100, 1/2500, 1/2000, 1/2000, 10, 15, 3⟩
    ⟨fun _ => 500, [], fun s => if s = .momentum then some 10 else none, fun _ => 0, [], []⟩
    rfl (by simp)).1

/-- Counting matches through a dict update: `assocSet` adds at most one
matching entry, whether it replaces or appends. -/
theorem countP_assocSet_le_succ (P : String × LivePos → Bool) :
    ∀ (l : List (String × LivePos)) (k : String) (v : LivePos),
      List.countP P (assocSet l k v) ≤ List.countP P l + 1 := by
  intro l
  induction l with
  | nil =>
    intro k v
    simp only [assocSet, List.countP_cons, List.countP_nil]
    split_ifs <;> simp
  | cons a rest ih =>
    intro k v
    obtain ⟨k', v'⟩ := a
    simp only [assocSet]
    split_ifs with hk
    · rw [List.countP_cons, List.countP_cons]
      split_ifs <;> omega
    · rw [List.countP_cons, List.countP_cons]
      have := ih k v
      omega

/-- A dict update whose written value does not match the predicate never
raises the match count. -/
theorem countP_assocSet_le_of_neg (P : String × LivePos → Bool) (k : String) (v : LivePos)
    (hv : ¬P (k, v) = true) :
    ∀ l : List (String × LivePos),
      List.countP P (assocSet l k v) ≤ List.countP P l := by
  intro l
  induction l with
  | nil =>
    simp only [assocSet, List.countP_nil]
    rw [List.countP_cons_of_neg _ _ hv]
    simp
  | cons a rest ih =>
    obtain ⟨k', v'⟩ := a
    simp only [assocSet]
    split_ifs with hk
    · rw [List.countP_cons_of_neg _ _ hv, List.countP_cons]
      split_ifs <;> omega
    · rw [List.countP_cons, List.countP_cons]
      omega

/-- The open-pair count is a `countP` over the raw positions map (folding
the `get_open_positions` status filter into the predicate). -/
theorem liveOpenCount_eq_countP (st : PState) (sym strat : String) :
    liveOpenCount st sym strat
      = List.countP (fun kv => decide (kv.2.status ≠ PStatus.closed)
          && (decide (kv.2.symbol = sym) && decide (kv.2.strategy = strat)))
          st.positions := by
  rw [liveOpenCount, get_open_positions]
  generalize st.positions = l
  induction l with
  | nil => rfl
  | cons a rest ih =>
    by_cases hS : decide (a.2.status ≠ PStatus.closed) = true
    · rw [List.filter_cons_of_pos (by exact hS)]
      by_cases hP : (decide (a.2.symbol = sym) && decide (a.2.strategy = strat)) = true
      · rw [List.filter_cons_of_pos (by exact hP),
          List.countP_cons_of_pos _ _ (by simp [hS, hP]), List.length_cons, ih]
      · rw [List.filter_cons_of_neg (by exact hP),
          List.countP_cons_of_neg _ _ (by simp [hS, hP])]
        exact ih
    · rw [List.filter_cons_of_neg (by exact hS),
        List.countP_cons_of_neg _ _ (by simp [hS])]
      exact ih

/-- `open_position` raises the count of its own (symbol, strategy) pair by
at most one and no other pair's count. -/
theorem open_position_count_le (st : PState) (pid sym strat : String)
    (price qty : ℚ) (s' t' : String) :
    liveOpenCount (open_position st pid sym strat price qty) s' t'
      ≤ liveOpenCount st s' t' + (if sym = s' ∧ strat = t' then 1 else 0) := by
  by_cases hdebit : assocGetD st.balances strat 0 - qty * price < 0
  · simp only [open_position, if_pos hdebit]
    exact Nat.le_add_right _ _
  · simp only [open_position, if_neg hdebit]
    rw [liveOpenCount_eq_countP, liveOpenCount_eq_countP]
    dsimp only
    by_cases hpair : sym = s' ∧ strat = t'
    · rw [if_pos hpair]
      exact countP_assocSet_le_succ _ st.positions pid _
    · rw [if_neg hpair]
      refine countP_assocSet_le_of_neg _ pid _ ?_ st.positions
      rcases not_and_or.mp hpair with h | h <;> simp [h]

/-- `open_position` never raises the count of a different (symbol, strategy)
pair. -/
theorem open_position_count_other (st : PState) (pid sym strat : String)
    (price qty : ℚ) (s' t' : String) (h : ¬(sym = s' ∧ strat = t')) :
    liveOpenCount (open_position st pid sym strat price qty) s' t'
      ≤ liveOpenCount st s' t' := by
  have := open_position_count_le st pid sym strat price qty s' t'
  simpa [if_neg h] using this

/-- When a snapshot of the store's open positions shows no position of a
pair, the store's open-pair count is zero. -/
theorem snapshot_any_false_count_zero (st : PState) (sym strat : String)
    (h : (((get_open_positions st).map Prod.snd).any fun p =>
        decide (p.symbol = sym) && decide (p.strategy = strat)) = false) :
    liveOpenCount st sym strat = 0 := by
  have h' := List.any_eq_false.mp h
  rw [liveOpenCount, List.length_eq_zero]
  refine List.filter_eq_nil_iff.mpr ?_
  intro kv hkv
  have := h' kv.2 (List.mem_map_of_mem Prod.snd hkv)
  simpa using this

/-- A strategy block raises its own pair's open count by at most one. -/
theorem tryOpen_count_le (st : PState) (b : Bool) (sym strat : String)
    (fill : Option (String × ℚ × ℚ)) (s' t' : String) :
    liveOpenCount (tryOpen st b sym strat fill) s' t'
      ≤ liveOpenCount st s' t' + (if sym = s' ∧ strat = t' then 1 else 0) := by
  cases fill with
  | none => exact Nat.le_add_right _ _
  | some f =>
    cases b with
    | true =>
      show liveOpenCount st s' t' ≤ _
      exact Nat.le_add_right _ _
    | false =>
      show liveOpenCount (open_position st f.1 sym strat f.2.1 f.2.2) s' t' ≤ _
      exact open_position_count_le st f.1 sym strat f.2.1 f.2.2 s' t'

/-- A strategy block never raises another pair's open count. -/
theorem tryOpen_count_other (st : PState) (b : Bool) (sym strat : String)
    (fill : Option (String × ℚ × ℚ)) (s' t' : String) (h : ¬(sym = s' ∧ strat = t')) :
    liveOpenCount (tryOpen st b sym strat fill) s' t' ≤ liveOpenCount st s' t' := by
  have := tryOpen_count_le st b sym strat fill s' t'
  simpa [if_neg h] using this

/-- A strategy block starting from a pair with no open position leaves at
most one. -/
theorem tryOpen_count_zero (st : PState) (b : Bool) (sym strat : String)
    (fill : Option (String × ℚ × ℚ)) (hz : liveOpenCount st sym strat = 0) :
    liveOpenCount (tryOpen st b sym strat fill) sym strat ≤ 1 := by
  have := tryOpen_count_le st b sym strat fill sym strat
  rw [hz, if_pos ⟨rfl, rfl⟩] at this
  simpa using this

/-- A blocked strategy block (`has_<strategy>` true) is a no-op. -/
theorem tryOpen_blocked (st : PState) (sym strat : String)
    (fill : Option (String × ℚ × ℚ)) :
    tryOpen st true sym strat fill = st := by
  cases fill <;> simp [tryOpen]

/-- One `scan_and_trade` symbol iteration keeps every pair's open count at
most one - provided the snapshot is accurate for this symbol (a pair the
snapshot shows closed really has count zero) - and never raises the count of
any other symbol's pair. -/
theorem scanSym_count (snap : List LivePos) (st : PState) (obs : ScanObs)
    (hm : (snap.any fun p => decide (p.symbol = obs.symbol)
        && decide (p.strategy = "momentum")) = false →
        liveOpenCount st obs.symbol "momentum" = 0)
    (ha : (snap.any fun p => decide (p.symbol = obs.symbol)
        && decide (p.strategy = "ma")) = false →
        liveOpenCount st obs.symbol "ma" = 0)
    (hinv : ∀ sym strat, liveOpenCount st sym strat ≤ 1) :
    (∀ sym strat, liveOpenCount (scanSym snap st obs) sym strat ≤ 1)
    ∧ ∀ sym strat, sym ≠ obs.symbol →
        liveOpenCount (scanSym snap st obs) sym strat ≤ liveOpenCount st sym strat := by
  simp only [scanSym]
  constructor
  · intro sym strat
    by_cases hs : sym = obs.symbol
    · subst hs
      by_cases ht : strat = "momentum"
      · subst ht
        refine le_trans (tryOpen_count_other _ _ _ _ _ _ _ (by simp)) ?_
        by_cases hb : (snap.any fun p => decide (p.symbol = obs.symbol)
            && decide (p.strategy = "momentum")) = true
        · rw [hb, tryOpen_blocked]
          exact hinv _ _
        · have hfalse : (snap.any fun p => decide (p.symbol = obs.symbol)
              && decide (p.strategy = "momentum")) = false := by
            simpa using hb
          exact tryOpen_count_zero _ _ _ _ _ (hm hfalse)
      · by_cases ht2 : strat = "ma"
        · subst ht2
          have hstep1 : liveOpenCount
              (tryOpen st (snap.any fun p => decide (p.symbol = obs.symbol)
                && decide (p.strategy = "momentum")) obs.symbol "momentum" obs.momentumFill)
              obs.symbol "ma" ≤ liveOpenCount st obs.symbol "ma" :=
            tryOpen_count_other _ _ _ _ _ _ _ (by simp)
          by_cases hb : (snap.any fun p => decide (p.symbol = obs.symbol)
              && decide (p.strategy = "ma")) = true
          · rw [hb, tryOpen_blocked]
            exact le_trans hstep1 (hinv _ _)
          · have hfalse : (snap.any fun p => decide (p.symbol = obs.symbol)
                && decide (p.strategy = "ma")) = false := by
              simpa using hb
            have h0 : liveOpenCount
                (tryOpen st (snap.any fun p => decide (p.symbol = obs.symbol)
                  && decide (p.strategy = "momentum")) obs.symbol "momentum" obs.momentumFill)
                obs.symbol "ma" = 0 :=
              Nat.le_zero.mp (ha hfalse ▸ hstep1)
            exact tryOpen_count_zero _ _ _ _ _ h0
        · refine le_trans (tryOpen_count_other _ _ _ _ _ _ _ fun hc => ht2 hc.2.symm) ?_
          refine le_trans (tryOpen_count_other _ _ _ _ _ _ _ fun hc => ht hc.2.symm) ?_
          exact hinv _ _
    · refine le_trans (tryOpen_count_other _ _ _ _ _ _ _ fun hc => hs hc.1.symm) ?_
      refine le_trans (tryOpen_count_other _ _ _ _ _ _ _ fun hc => hs hc.1.symm) ?_
      exact hinv _ _
  · intro sym strat hs
    refine le_trans (tryOpen_count_other _ _ _ _ _ _ _ fun hc => hs hc.1.symm) ?_
    exact tryOpen_count_other _ _ _ _ _ _ _ fun hc => hs hc.1.symm

/-- The scan loop keeps every pair's open count at most one, given a
duplicate-free universe and a snapshot that is accurate on the universe's
symbols at loop entry. -/
theorem scanLoop_inv (snap : List LivePos) :
    ∀ (univ : List ScanObs) (st : PState),
      (univ.map ScanObs.symbol).Nodup →
      (∀ sym strat, liveOpenCount st sym strat ≤ 1) →
      (∀ obs ∈ univ, ∀ strat,
          (snap.any fun p => decide (p.symbol = obs.symbol)
            && decide (p.strategy = strat)) = false →
          liveOpenCount st obs.symbol strat = 0) →
      ∀ sym strat, liveOpenCount (univ.foldl (scanSym snap) st) sym strat ≤ 1 := by
  intro univ
  induction univ with
  | nil => intro st _ hinv _ sym strat; exact hinv sym strat
  | cons obs rest ih =>
    intro st hnd hinv hacc sym strat
    simp only [List.foldl_cons]
    have hm := hacc obs (List.mem_cons_self _ _) "momentum"
    have ha := hacc obs (List.mem_cons_self _ _) "ma"
    have hstep := scanSym_count snap st obs hm ha hinv
    have hnd' : ((obs :: rest).map ScanObs.symbol).Nodup := hnd
    rw [List.map_cons, List.nodup_cons] at hnd'
    refine ih (scanSym snap st obs) ?_ hstep.1 ?_ sym strat
    · exact hnd'.2
    · intro obs' hobs' strat' hsnap'
      have h0 := hacc obs' (List.mem_cons_of_mem _ hobs') strat' hsnap'
      have hne : obs'.symbol ≠ obs.symbol := by
        intro he
        exact hnd'.1 (he ▸ List.mem_map_of_mem ScanObs.symbol hobs')
      have := hstep.2 obs'.symbol strat' hne
      omega
/-- C6 counterexample, the live driver: `StrategyManager.scan_and_trade`
keeps no last-entry record and consults no tick index, so nothing enforces a
cooldown.  A momentum position on "X" is opened on one poll; once it is
closed, the very next poll's qualifying signal opens a new momentum position
on "X" immediately - the claim's scenario (an entry blocks re-entry for
`cooldown_bars` ticks even after the position is closed) fails at the first
opportunity. -/
theorem C6_live_reentry_next_poll :
    liveOpenCount
      (scan_and_trade { freshPState with balances := [("momentum", 1000)] }
        [{ symbol := "X", momentumFill := some ("p1", 10, 1), maFill := none }])
      "X" "momentum" = 1
    ∧ liveOpenCount
      (close_position 1000
        (scan_and_trade { freshPState with balances := [("momentum", 1000)] }
          [{ symbol := "X", momentumFill := some ("p1", 10, 1), maFill := none }])
        "p1" 0)
      "X" "momentum" = 0
    ∧ liveOpenCount
      (scan_and_trade
        (close_position 1000
          (scan_and_trade { freshPState with balances := [("momentum", 1000)] }
            [{ symbol := "X", momentumFill := some ("p1", 10, 1), maFill := none }])
          "p1" 0)
        [{ symbol := "X", momentumFill := some ("p2", 10, 1), maFill := none }])
      "X" "momentum" = 1 := by
  refine ⟨?_, ?_, ?_⟩ <;>
    norm_num [scan_and_trade, scanSym, tryOpen, open_position, close_position,
      update_balance, ledgerAppend, get_open_positions, liveOpenCount,
      freshPState, assocGetD, assocSet, get_balance, List.lookup,
      List.filter, List.foldl]

/-- C7: the backtest driver satisfies the invariant outright - at every tick
boundary at most one open position per strategy (the run is single-symbol,
so per (symbol, strategy) pair); the live driver's `scan_and_trade`
preserves the at-most-one-open invariant of the store over a poll whose
universe has no repeated symbol.  The duplicate-free hypothesis is needed on
the live side because the open-position snapshot is fetched once per scan
(see the stale-snapshot counterexample below). -/
theorem C7_at_most_one_open_per_pair :
    (∀ (cfg : BTCfg) (bars : List Bar) (n : ℕ) (s : Strategy),
        ((foldTicks cfg bars n).openPositions.filter
          fun p => decide (p.strategy = s)).length ≤ 1)
    ∧ ∀ (st : PState) (univ : List ScanObs),
        (univ.map ScanObs.symbol).Nodup →
        (∀ sym strat, liveOpenCount st sym strat ≤ 1) →
        ∀ sym strat, liveOpenCount (scan_and_trade st univ) sym strat ≤ 1 := by
  constructor
  · intro cfg bars n s
    have hnd : ∀ m, noDupStrat (foldTicks cfg bars m).openPositions := by
      intro m
      induction m with
      | zero => simp [foldTicks, initState, noDupStrat]
      | succ m ih =>
        rw [foldTicks_succ]
        exact tickStep_noDup cfg bars _ m ih
    exact noDupStrat_filter_le_one s _ (hnd n)
  · intro st univ hnd hinv sym strat
    refine scanLoop_inv ((get_open_positions st).map Prod.snd) univ st hnd hinv ?_ sym strat
    intro obs _ strat' hsnap'
    exact snapshot_any_false_count_zero st obs.symbol strat' hsnap'

/-- Witness for C7: one live poll on the fresh store over the singleton
universe ["BTCUSDT"] ends with at most one open (BTCUSDT, momentum)
position. -/
theorem C7_at_most_one_open_per_pair_witness :
    liveOpenCount
      (scan_and_trade freshPState
        [{ symbol := "BTCUSDT", momentumFill := some ("1", 10, 1), maFill := none }])
      "BTCUSDT" "momentum" ≤ 1 :=
  C7_at_most_one_open_per_pair.2 freshPState
    [{ symbol := "BTCUSDT", momentumFill := some ("1", 10, 1), maFill := none }]
    (by simp)
    (fun sym strat => by simp [liveOpenCount, get_open_positions, freshPState])
    "BTCUSDT" "momentum"

/-- C7 counterexample, the live driver on a repeated symbol: `has_momentum`
is tested against the snapshot fetched once before the symbol loop, so when
the universe lists "X" twice, the second iteration still sees the stale
pre-scan snapshot, does not notice the position the first iteration opened,
and opens a second (X, momentum) position in the same scan - two open
positions for one pair, refuting the claim for the live driver. -/
theorem C7_live_duplicate_symbol_double_open :
    liveOpenCount
      (scan_and_trade { freshPState with balances := [("momentum", 1000)] }
        [{ symbol := "X", momentumFill := some ("p1", 10, 1), maFill := none },
         { symbol := "X", momentumFill := some ("p2", 10, 1), maFill := none }])
      "X" "momentum" = 2 := by
  norm_num [scan_and_trade, scanSym, tryOpen, open_position, get_open_positions,
    liveOpenCount, freshPState, assocGetD, assocSet, List.filter, List.foldl]
